import Mathlib

/-!
Verification of the multi-instance cloud-provider subsystem of the
cloud-photo-manager repository.

The development shallowly embeds the core data structures and operations of
the source (`backend/cloud-provider-manager.ts` with its `ThumbnailHandler`,
`backend/env-file-manager.ts`, `backend/providers/dropbox-provider.ts`) as
executable Lean definitions and proves or refutes the specification claims
about them.

Modelling conventions:
* JavaScript numbers that hold integers (timestamps, sizes, indices) are
  modelled as `Int` (or `Nat` where the source guarantees non-negativity).
* JavaScript strings that are inspected character by character (env-file
  lines, file names) are modelled as `List Char`; strings that are only
  compared for equality (ids, provider-type tags) stay `String`.
* The text content of the `.env` file is represented by the list of its
  `'\n'`-separated segments (what `content.split('\n')` yields); the empty
  file content `""` is represented by `[[]]`, matching `''.split('\n')`.
* A JavaScript regular expression is embedded as the matching function it
  denotes on the inputs the source applies it to; each such embedding is
  documented at its definition.
-/

namespace CloudPhoto

/-! ### File records (`thumbnail-handler.ts`, `interface FileMetadata`)

`date_taken` is a JS `Date`; both the sort comparator (`getTime()`) and the
merge comparison (`<=` on `Date`) observe only its numeric timestamp, which we
model as `Int`. -/

structure FileMetadata where
  id : String
  name : String
  path : String
  date_taken : Int
  size : Int
  providerType : String
  instanceIndex : Int
  hash : Option String := none
deriving DecidableEq, Repr

/-- Timestamp (non-strict) order on file records, the order maintained by the
merger. -/
def dle (a b : FileMetadata) : Prop := a.date_taken ≤ b.date_taken

instance : DecidableRel dle :=
  fun a b => inferInstanceAs (Decidable (a.date_taken ≤ b.date_taken))

/-- The static state of `ThumbnailHandler`: the globally sorted record list
and the render cursor (`renderPointer`, initially `0`). -/
structure ThumbState where
  dateSortedThumbnails : List FileMetadata
  renderPointer : Nat
deriving DecidableEq, Repr

/-- `ThumbnailHandler`'s initial static state: empty list, pointer `0`. -/
def initialThumbState : ThumbState := ⟨[], 0⟩

/-- The fixed image-extension allow-list of `ThumbnailHandler.isImage`. -/
def imageExtensions : List (List Char) :=
  [".jpg".toList, ".jpeg".toList, ".png".toList, ".gif".toList, ".bmp".toList,
   ".webp".toList, ".tiff".toList, ".tif".toList, ".svg".toList, ".ico".toList,
   ".heic".toList, ".heif".toList, ".raw".toList, ".cr2".toList, ".nef".toList,
   ".arw".toList, ".dng".toList]

/-- `name.lastIndexOf(c)`: index of the last occurrence of `c`, `none` for
JavaScript's `-1`. -/
def lastIndexOfChar (c : Char) (l : List Char) : Option Nat :=
  l.enum.foldl (fun acc p => if p.2 = c then some p.1 else acc) none

/-- `ThumbnailHandler.isImage`, as the predicate its body computes once
awaited: no dot or a leading dot rejects the file, otherwise the lowercased
suffix from the last dot must be in the allow-list.  (`toLowerCase` followed
by `substring(lastDotIndex)` is per-character lowercasing for these ASCII
extensions.) -/
def isImage (file : FileMetadata) : Bool :=
  match lastIndexOfChar '.' file.name.toList with
  | none => false
  | some 0 => false
  | some i => imageExtensions.contains ((file.name.toList.map Char.toLower).drop i)

/-- One step of the stable ascending sort: insert `a` before the first
element whose timestamp is `≥` its own. -/
def insertByDate (a : FileMetadata) : List FileMetadata → List FileMetadata
  | [] => [a]
  | b :: l =>
    if a.date_taken ≤ b.date_taken then a :: b :: l else b :: insertByDate a l

/-- `imageFiles.sort((a, b) => a.date_taken.getTime() - b.date_taken.getTime())`:
`Array.prototype.sort` is required to be stable, and a stable ascending sort
by timestamp is unique as a function, so we embed it as insertion sort. -/
def sortByDate : List FileMetadata → List FileMetadata
  | [] => []
  | a :: l => insertByDate a (sortByDate l)

/-- The two-pointer merge loop of `ThumbnailHandler.addThumbnails`: on
`existing[i].date_taken <= incoming[j].date_taken` the existing element is
emitted first. -/
def mergeByDate : List FileMetadata → List FileMetadata → List FileMetadata
  | [], ys => ys
  | x :: xs, [] => x :: xs
  | x :: xs, y :: ys =>
    if x.date_taken ≤ y.date_taken then x :: mergeByDate xs (y :: ys)
    else y :: mergeByDate (x :: xs) ys
termination_by l r => l.length + r.length

/-- `ThumbnailHandler.addThumbnails`.  In the source,
`files.filter(file => ThumbnailHandler.isImage(file))` invokes the `async`
method `isImage` without awaiting it; the callback therefore returns a
`Promise` object, which is always truthy, so the filter keeps every element
of the batch.  `imageFiles` is consequently the whole batch.  The empty-batch
early return, the sort, the adopt-into-empty branch (which returns without
touching `renderPointer`) and the merge branch (which resets `renderPointer`)
follow the source line by line. -/
def addThumbnails (s : ThumbState) (files : List FileMetadata) : ThumbState :=
  let imageFiles := files
  if imageFiles.length = 0 then s
  else
    let sorted := sortByDate imageFiles
    if s.dateSortedThumbnails.length = 0 then
      { s with dateSortedThumbnails := sorted }
    else
      let merged := mergeByDate s.dateSortedThumbnails sorted
      { dateSortedThumbnails := merged, renderPointer := merged.length }

/-- `ThumbnailHandler.removeProvider`: keep exactly the records whose
`(providerType, instanceIndex)` tag differs, then reset the pointer. -/
def thumbRemoveProvider (s : ThumbState) (t : String) (i : Int) : ThumbState :=
  let remaining := s.dateSortedThumbnails.filter
    (fun f => f.providerType != t || f.instanceIndex != i)
  { dateSortedThumbnails := remaining, renderPointer := remaining.length }

/-- `ThumbnailHandler.getThumbnailObjects` (the spec's `getPage`): guard
clauses, then the slice `[endIndex, startIndex]` of the ascending sequence,
reversed into newest-first order.  `slice(e, s + 1)` is `drop e` followed by
`take (s + 1 - e)`. -/
def getThumbnailObjects (s : ThumbState) (index size : Int) : List FileMetadata :=
  let totalLength : Int := s.dateSortedThumbnails.length
  if totalLength = 0 ∨ index < 0 ∨ size ≤ 0 ∨ index ≥ totalLength then []
  else
    let startIndex := totalLength - 1 - index
    let endIndex := max 0 (startIndex - size + 1)
    (((s.dateSortedThumbnails.drop endIndex.toNat).take
        (startIndex + 1 - endIndex).toNat).reverse)

/-! ### Lemmas about the sort and the merge -/

/-- Boolean test for a record carrying a given timestamp; used to express
stability of the merge (for each timestamp, existing records precede batch
records). -/
def hasDate (t : Int) (f : FileMetadata) : Bool := f.date_taken == t

theorem insertByDate_perm (a : FileMetadata) (l : List FileMetadata) :
    (insertByDate a l).Perm (a :: l) := by
  induction l with
  | nil => simp [insertByDate]
  | cons b l ih =>
    by_cases h : a.date_taken ≤ b.date_taken
    · simp [insertByDate, h]
    · simp only [insertByDate, if_neg h]
      exact (ih.cons b).trans (List.Perm.swap a b l)

theorem sortByDate_perm (l : List FileMetadata) : (sortByDate l).Perm l := by
  induction l with
  | nil => simp [sortByDate]
  | cons a l ih =>
    exact (insertByDate_perm a (sortByDate l)).trans (ih.cons a)

theorem insertByDate_sorted {l : List FileMetadata} (a : FileMetadata)
    (hl : l.Sorted dle) : (insertByDate a l).Sorted dle := by
  induction l with
  | nil => simp [insertByDate, dle]
  | cons b l ih =>
    rw [List.sorted_cons] at hl
    by_cases h : a.date_taken ≤ b.date_taken
    · rw [insertByDate, if_pos h, List.sorted_cons]
      refine ⟨?_, by rw [List.sorted_cons]; exact hl⟩
      intro c hc
      rcases List.mem_cons.mp hc with rfl | hc
      · exact h
      · exact le_trans h (hl.1 c hc)
    · rw [insertByDate, if_neg h, List.sorted_cons]
      refine ⟨?_, ih hl.2⟩
      intro c hc
      have hc' : c ∈ a :: l := (insertByDate_perm a l).mem_iff.mp hc
      rcases List.mem_cons.mp hc' with rfl | hc'
      · exact le_of_lt (not_le.mp h)
      · exact hl.1 c hc'

theorem sortByDate_sorted (l : List FileMetadata) : (sortByDate l).Sorted dle := by
  induction l with
  | nil => simp [sortByDate]
  | cons a l ih => exact insertByDate_sorted a ih

theorem insertByDate_filter (t : Int) (a : FileMetadata) (l : List FileMetadata) :
    (insertByDate a l).filter (hasDate t)
      = if hasDate t a then a :: l.filter (hasDate t) else l.filter (hasDate t) := by
  induction l with
  | nil => cases h : hasDate t a <;> simp [insertByDate, h]
  | cons b l ih =>
    by_cases h : a.date_taken ≤ b.date_taken
    · cases ha : hasDate t a <;> simp [insertByDate, h, ha]
    · have hba : b.date_taken < a.date_taken := not_le.mp h
      rw [insertByDate, if_neg h, List.filter_cons, List.filter_cons]
      cases hb : hasDate t b
      · simpa using ih
      · -- b carries timestamp t, hence a (strictly later) does not
        have hbt : b.date_taken = t := by simpa [hasDate] using hb
        have hat : hasDate t a = false := by
          simp only [hasDate, beq_eq_false_iff_ne, ne_eq]
          omega
        simp only [hat, if_false] at ih ⊢
        simp [ih]

theorem sortByDate_filter (t : Int) (l : List FileMetadata) :
    (sortByDate l).filter (hasDate t) = l.filter (hasDate t) := by
  induction l with
  | nil => rfl
  | cons a l ih =>
    rw [sortByDate, insertByDate_filter, List.filter_cons]
    cases h : hasDate t a <;> simp [h, ih]

theorem mergeByDate_perm (l r : List FileMetadata) :
    (mergeByDate l r).Perm (l ++ r) := by
  induction l, r using mergeByDate.induct with
  | case1 ys => simp [mergeByDate]
  | case2 x xs => simp [mergeByDate]
  | case3 x xs y ys h ih =>
    rw [mergeByDate, if_pos h]
    exact ih.cons x
  | case4 x xs y ys h ih =>
    rw [mergeByDate, if_neg h]
    exact (ih.cons y).trans List.perm_middle.symm

theorem mergeByDate_sorted {l r : List FileMetadata}
    (hl : l.Sorted dle) (hr : r.Sorted dle) : (mergeByDate l r).Sorted dle := by
  induction l, r using mergeByDate.induct with
  | case1 ys => simpa [mergeByDate] using hr
  | case2 x xs => simpa [mergeByDate] using hl
  | case3 x xs y ys h ih =>
    rw [List.sorted_cons] at hl
    rw [mergeByDate, if_pos h, List.sorted_cons]
    refine ⟨?_, ih hl.2 hr⟩
    intro b hb
    rcases List.mem_append.mp ((mergeByDate_perm xs (y :: ys)).mem_iff.mp hb) with hb | hb
    · exact hl.1 b hb
    · rw [List.sorted_cons] at hr
      rcases List.mem_cons.mp hb with rfl | hb
      · exact h
      · exact le_trans h (hr.1 b hb)
  | case4 x xs y ys h ih =>
    rw [List.sorted_cons] at hr
    rw [mergeByDate, if_neg h, List.sorted_cons]
    refine ⟨?_, ih hl hr.2⟩
    intro b hb
    rcases List.mem_append.mp ((mergeByDate_perm (x :: xs) ys).mem_iff.mp hb) with hb | hb
    · rw [List.sorted_cons] at hl
      rcases List.mem_cons.mp hb with rfl | hb
      · exact le_of_lt (not_le.mp h)
      · exact le_trans (le_of_lt (not_le.mp h)) (hl.1 b hb)
    · exact hr.1 b hb

theorem mergeByDate_filter (t : Int) {l r : List FileMetadata} (hl : l.Sorted dle) :
    (mergeByDate l r).filter (hasDate t)
      = l.filter (hasDate t) ++ r.filter (hasDate t) := by
  induction l, r using mergeByDate.induct with
  | case1 ys => simp [mergeByDate]
  | case2 x xs => simp [mergeByDate]
  | case3 x xs y ys h ih =>
    rw [List.sorted_cons] at hl
    rw [mergeByDate, if_pos h, List.filter_cons, List.filter_cons]
    cases hx : hasDate t x <;> simp [hx, ih hl.2]
  | case4 x xs y ys h ih =>
    have hyx : y.date_taken < x.date_taken := not_le.mp h
    rw [mergeByDate, if_neg h]
    cases hy : hasDate t y
    · rw [List.filter_cons_of_neg (by simp [hy]),
        List.filter_cons_of_neg (a := y) (by simp [hy])]
      exact ih hl
    · have hyt : y.date_taken = t := by simpa [hasDate] using hy
      have hxl : (x :: xs).filter (hasDate t) = [] := by
        rw [List.filter_eq_nil_iff]
        intro b hb
        rw [List.sorted_cons] at hl
        have hxb : x.date_taken ≤ b.date_taken := by
          rcases List.mem_cons.mp hb with rfl | hb
          · exact le_refl _
          · exact hl.1 b hb
        simp only [hasDate, beq_eq_false_iff_ne, ne_eq, Bool.not_eq_true]
        omega
      rw [List.filter_cons_of_pos hy, List.filter_cons_of_pos (a := y) hy, ih hl, hxl]
      simp [hxl]

/-- The merged list of `addThumbnails` is, as a multiset, the previous list
plus the whole batch (the inoperative image filter drops nothing). -/
theorem addThumbnails_perm (s : ThumbState) (files : List FileMetadata) :
    (addThumbnails s files).dateSortedThumbnails.Perm
      (s.dateSortedThumbnails ++ files) := by
  rw [addThumbnails]
  by_cases hf : files.length = 0
  · rw [List.length_eq_zero] at hf
    simp [hf]
  · simp only [if_neg hf]
    by_cases hs : s.dateSortedThumbnails.length = 0
    · rw [List.length_eq_zero] at hs
      simp only [hs, if_pos rfl]
      simpa using sortByDate_perm files
    · simp only [if_neg hs]
      exact (mergeByDate_perm _ _).trans
        (List.Perm.append_left _ (sortByDate_perm files))

theorem addThumbnails_sorted {s : ThumbState} (files : List FileMetadata)
    (hs : s.dateSortedThumbnails.Sorted dle) :
    (addThumbnails s files).dateSortedThumbnails.Sorted dle := by
  rw [addThumbnails]
  by_cases hf : files.length = 0
  · simpa [hf]
  · simp only [if_neg hf]
    by_cases he : s.dateSortedThumbnails.length = 0
    · simp only [he, if_pos rfl]
      exact sortByDate_sorted files
    · simp only [if_neg he]
      exact mergeByDate_sorted hs (sortByDate_sorted files)

theorem addThumbnails_filter (t : Int) {s : ThumbState} (files : List FileMetadata)
    (hs : s.dateSortedThumbnails.Sorted dle) :
    (addThumbnails s files).dateSortedThumbnails.filter (hasDate t)
      = s.dateSortedThumbnails.filter (hasDate t) ++ files.filter (hasDate t) := by
  rw [addThumbnails]
  by_cases hf : files.length = 0
  · rw [List.length_eq_zero] at hf
    simp [hf]
  · simp only [if_neg hf]
    by_cases he : s.dateSortedThumbnails.length = 0
    · rw [List.length_eq_zero] at he
      simp only [he, if_pos rfl]
      simpa using sortByDate_filter t files
    · simp only [if_neg he]
      rw [mergeByDate_filter t hs, sortByDate_filter]

/-! ### Characterization of `getThumbnailObjects` -/

theorem drop_take_append {α : Type} (L : List α) (a b c : Nat)
    (hab : a ≤ b) (hbc : b ≤ c) :
    (L.drop a).take (b - a) ++ (L.drop b).take (c - b) = (L.drop a).take (c - a) := by
  have h1 : c - a = (b - a) + (c - b) := by omega
  rw [h1, List.take_add]
  congr 1
  have h2 : (L.drop a).drop (b - a) = L.drop b := by
    rw [List.drop_drop]
    congr 1
    omega
  rw [h2]

/-- Outside the guard conditions, `getThumbnailObjects` returns the reversed
window of (up to) `size` records ending `index` positions from the newest
end. -/
theorem getThumbnailObjects_eq (s : ThumbState) (index size : Int)
    (h0 : 0 ≤ index) (h1 : 0 < size)
    (h2 : index < (s.dateSortedThumbnails.length : Int)) :
    getThumbnailObjects s index size =
      ((s.dateSortedThumbnails.drop
          (s.dateSortedThumbnails.length - index.toNat - size.toNat)).take
        (min size.toNat (s.dateSortedThumbnails.length - index.toNat))).reverse := by
  have hguard : ¬ ((s.dateSortedThumbnails.length : Int) = 0 ∨ index < 0 ∨ size ≤ 0
      ∨ index ≥ (s.dateSortedThumbnails.length : Int)) := by omega
  simp only [getThumbnailObjects, if_neg hguard]
  have e1 : (max 0 ((s.dateSortedThumbnails.length : Int) - 1 - index - size + 1)).toNat
      = s.dateSortedThumbnails.length - index.toNat - size.toNat := by omega
  have e2 : ((s.dateSortedThumbnails.length : Int) - 1 - index + 1
      - max 0 ((s.dateSortedThumbnails.length : Int) - 1 - index - size + 1)).toNat
      = min size.toNat (s.dateSortedThumbnails.length - index.toNat) := by omega
  rw [e1, e2]

theorem getThumbnailObjects_guard (s : ThumbState) (index size : Int)
    (h : (s.dateSortedThumbnails.length : Int) = 0 ∨ index < 0 ∨ size ≤ 0
      ∨ index ≥ (s.dateSortedThumbnails.length : Int)) :
    getThumbnailObjects s index size = [] := by
  simp only [getThumbnailObjects, if_pos h]

/-! ### Concrete records used by the claims -/

/-- A record named `"photo"`: no extension at all. -/
def photoFile : FileMetadata :=
  { id := "f1", name := "photo", path := "/photo", date_taken := 0, size := 1,
    providerType := "dropbox", instanceIndex := 0 }

/-- A record named `".bashrc"`: leading dot only. -/
def bashrcFile : FileMetadata :=
  { id := "f2", name := ".bashrc", path := "/.bashrc", date_taken := 0, size := 1,
    providerType := "dropbox", instanceIndex := 0 }

/-- A record named `"IMG_0001.HEIC"`: upper-case image extension. -/
def heicFile : FileMetadata :=
  { id := "f3", name := "IMG_0001.HEIC", path := "/IMG_0001.HEIC", date_taken := 7,
    size := 1, providerType := "dropbox", instanceIndex := 0 }

/-- An image record with timestamp `t`, for the paging scenario. -/
def exRec (t : Int) : FileMetadata :=
  { id := "r", name := "r.jpg", path := "/r.jpg", date_taken := t, size := 1,
    providerType := "dropbox", instanceIndex := 0 }

/-- A merger state holding records at timestamps 1..5 (ascending), cursor at
the end. -/
def exampleFiveState : ThumbState :=
  ⟨[exRec 1, exRec 2, exRec 3, exRec 4, exRec 5], 5⟩

/-! ### Claim C4 -/

/-- Claim C4, counterexample: the claim asserts the post-merge length is the
previous length plus the batch length *after image-extension filtering*.  On
the code, adding the single non-image record `photoFile` (so a filtered batch
of length 0) to the empty collection yields a collection of length 1, because
the `async` image filter never drops anything. -/
theorem c4_counterexample :
    (addThumbnails initialThumbState [photoFile]).dateSortedThumbnails.length = 1
    ∧ ([photoFile].filter (fun f => isImage f)).length = 0 := by
  constructor
  · rfl
  · rfl

/-- Claim C4 (amended): for every existing sorted collection and every batch,
after `addThumbnails` completes the sequence is non-decreasing by timestamp;
its length is the previous length plus the *whole* batch length (no
image-extension filtering takes effect, since the `async` `isImage` is used
as a synchronous filter callback and every file passes); as a multiset the
result is the previous collection plus the batch; the merge is stable: for
each timestamp, existing records precede batch records; and merging batch A
then batch B versus B then A from the same initial state yields the same
final multiset. -/
theorem c4_merge_properties (p : Nat) (l files : List FileMetadata)
    (hl : l.Sorted dle) :
    (addThumbnails ⟨l, p⟩ files).dateSortedThumbnails.Sorted dle
    ∧ (addThumbnails ⟨l, p⟩ files).dateSortedThumbnails.length
        = l.length + files.length
    ∧ (addThumbnails ⟨l, p⟩ files).dateSortedThumbnails.Perm (l ++ files)
    ∧ (∀ t : Int, (addThumbnails ⟨l, p⟩ files).dateSortedThumbnails.filter (hasDate t)
        = l.filter (hasDate t) ++ files.filter (hasDate t))
    ∧ (∀ files2 : List FileMetadata,
        (addThumbnails (addThumbnails ⟨l, p⟩ files) files2).dateSortedThumbnails.Perm
          (addThumbnails (addThumbnails ⟨l, p⟩ files2) files).dateSortedThumbnails) := by
  refine ⟨addThumbnails_sorted files hl, ?_, addThumbnails_perm ⟨l, p⟩ files,
    fun t => addThumbnails_filter t files hl, fun files2 => ?_⟩
  · have := (addThumbnails_perm ⟨l, p⟩ files).length_eq
    simpa using this
  · have h1 := (addThumbnails_perm (addThumbnails ⟨l, p⟩ files) files2).trans
      (List.Perm.append_right files2 (addThumbnails_perm ⟨l, p⟩ files))
    have h2 := (addThumbnails_perm (addThumbnails ⟨l, p⟩ files2) files).trans
      (List.Perm.append_right files (addThumbnails_perm ⟨l, p⟩ files2))
    refine h1.trans (.trans ?_ h2.symm)
    rw [List.append_assoc, List.append_assoc]
    exact List.Perm.append_left l List.perm_append_comm

/-- Claim C4, witness instantiation of `c4_merge_properties`. -/
theorem c4_witness :
    ([exRec 1, exRec 3].Sorted dle)
    ∧ (addThumbnails ⟨[exRec 1, exRec 3], 2⟩ [exRec 2]).dateSortedThumbnails.length
        = 2 + 1 := by
  exact ⟨by decide, (c4_merge_properties 2 [exRec 1, exRec 3] [exRec 2]
    (by decide)).2.1⟩

/-! ### Claim C5 -/

/-- Claim C5: for the merger's paging (`getThumbnailObjects`, the spec's
`getPage`): (guards) the result is empty whenever the collection is empty,
`index < 0`, `size <= 0` or `index >= length`; (top page) `getPage 0 k` with
`0 < k ≤ length` is exactly the last `k` records of the ascending sequence
in reversed (newest-first) order, and is non-increasing by timestamp when
the collection is sorted; (partition) for in-bounds pages,
`getPage index size` followed by `getPage (index+size) size` is exactly
`getPage index (2*size)` — adjacent pages are contiguous with no overlap and
no gap; (example) on records at timestamps 1..5, `getPage 0 2` is
`[t=5, t=4]` and `getPage 2 2` is `[t=3, t=2]`. -/
theorem c5_paging (s : ThumbState) (index size k : Int) :
    ((s.dateSortedThumbnails.length : Int) = 0 ∨ index < 0 ∨ size ≤ 0
        ∨ index ≥ (s.dateSortedThumbnails.length : Int) →
      getThumbnailObjects s index size = [])
    ∧ (0 < k → k ≤ (s.dateSortedThumbnails.length : Int) →
        getThumbnailObjects s 0 k
          = (s.dateSortedThumbnails.drop
              (s.dateSortedThumbnails.length - k.toNat)).reverse
        ∧ (s.dateSortedThumbnails.Sorted dle →
            (getThumbnailObjects s 0 k).Sorted (fun a b => dle b a)))
    ∧ (0 ≤ index → 0 < size →
        index + 2 * size ≤ (s.dateSortedThumbnails.length : Int) →
        getThumbnailObjects s index size
            ++ getThumbnailObjects s (index + size) size
          = getThumbnailObjects s index (2 * size))
    ∧ (getThumbnailObjects exampleFiveState 0 2 = [exRec 5, exRec 4]
        ∧ getThumbnailObjects exampleFiveState 2 2 = [exRec 3, exRec 2]) := by
  refine ⟨getThumbnailObjects_guard s index size, ?_, ?_, by decide, by decide⟩
  · intro hk hkl
    have heq : getThumbnailObjects s 0 k
        = (s.dateSortedThumbnails.drop
            (s.dateSortedThumbnails.length - k.toNat)).reverse := by
      rw [getThumbnailObjects_eq s 0 k le_rfl hk (by omega)]
      have e1 : s.dateSortedThumbnails.length - (0:Int).toNat - k.toNat
          = s.dateSortedThumbnails.length - k.toNat := by omega
      have e2 : min k.toNat (s.dateSortedThumbnails.length - (0:Int).toNat)
          = k.toNat := by omega
      rw [e1, e2, List.take_of_length_le (by simp; omega)]
    refine ⟨heq, ?_⟩
    intro hsorted
    rw [heq]
    rw [List.Sorted, List.pairwise_reverse]
    exact List.Pairwise.sublist (List.drop_sublist _ _) hsorted
  · intro hi hsz hbound
    have hlen : (0:Int) < (s.dateSortedThumbnails.length : Int) := by omega
    rw [getThumbnailObjects_eq s index size hi hsz (by omega),
      getThumbnailObjects_eq s (index + size) size (by omega) hsz (by omega),
      getThumbnailObjects_eq s index (2 * size) hi (by omega) (by omega),
      ← List.reverse_append]
    congr 1
    have h1 := drop_take_append s.dateSortedThumbnails
      (s.dateSortedThumbnails.length - index.toNat - 2 * size.toNat)
      (s.dateSortedThumbnails.length - index.toNat - size.toNat)
      (s.dateSortedThumbnails.length - index.toNat) (by omega) (by omega)
    have e1 : s.dateSortedThumbnails.length - index.toNat - size.toNat
        - (s.dateSortedThumbnails.length - index.toNat - 2 * size.toNat)
        = size.toNat := by omega
    have e2 : s.dateSortedThumbnails.length - index.toNat
        - (s.dateSortedThumbnails.length - index.toNat - size.toNat)
        = size.toNat := by omega
    have e3 : s.dateSortedThumbnails.length - index.toNat
        - (s.dateSortedThumbnails.length - index.toNat - 2 * size.toNat)
        = 2 * size.toNat := by omega
    rw [e1, e2, e3] at h1
    have e4 : s.dateSortedThumbnails.length - (index + size).toNat - size.toNat
        = s.dateSortedThumbnails.length - index.toNat - 2 * size.toNat := by omega
    have e5 : min size.toNat (s.dateSortedThumbnails.length - (index + size).toNat)
        = size.toNat := by omega
    have e6 : min size.toNat (s.dateSortedThumbnails.length - index.toNat)
        = size.toNat := by omega
    have e7 : min (2 * size).toNat (s.dateSortedThumbnails.length - index.toNat)
        = 2 * size.toNat := by omega
    have e8 : s.dateSortedThumbnails.length - index.toNat - (2 * size).toNat
        = s.dateSortedThumbnails.length - index.toNat - 2 * size.toNat := by omega
    rw [e4, e5, e6, e7, e8, h1]

/-- Claim C5, witness instantiation of `c5_paging` (partition part at a
concrete state and bounds). -/
theorem c5_witness :
    ((0:Int) ≤ 0 ∧ (0:Int) < 1 ∧ (0:Int) + 2 * 1 ≤ (5:Int))
    ∧ getThumbnailObjects exampleFiveState 0 1
        ++ getThumbnailObjects exampleFiveState 1 1
      = getThumbnailObjects exampleFiveState 0 (2 * 1) := by
  refine ⟨⟨by decide, by decide, by decide⟩, ?_⟩
  exact (c5_paging exampleFiveState 0 1 0).2.2.1 (by decide) (by decide)
    (by decide)

/-! ### Claim C6 -/

/-- Claim C6 (code bug): the awaited predicate `isImage` does reject
`"photo"` (no extension) and `".bashrc"` (leading dot only) and accepts
`"IMG_0001.HEIC"` case-insensitively, exactly as claimed — but
`addThumbnails` nevertheless admits the non-image `"photo"` into the merged
collection, because `files.filter(file => ThumbnailHandler.isImage(file))`
uses the `async` method as a synchronous predicate and the returned Promise
is always truthy. -/
theorem c6_image_filter_bug :
    isImage photoFile = false
    ∧ isImage bashrcFile = false
    ∧ isImage heicFile = true
    ∧ photoFile ∈ (addThumbnails initialThumbState [photoFile]).dateSortedThumbnails := by
  refine ⟨by decide, by decide, by decide, by decide⟩

/-! ### Claim C7 -/

/-- Claim C7, counterexample: adopting a batch into a previously empty
collection leaves the render cursor unchanged (here `0`) instead of resetting
it to the new total length `1`. -/
theorem c7_counterexample :
    (addThumbnails initialThumbState [heicFile]).dateSortedThumbnails.length = 1
    ∧ (addThumbnails initialThumbState [heicFile]).renderPointer = 0 := by
  refine ⟨by decide, by decide⟩

/-- Claim C7 (amended): `addThumbnails` resets the render cursor to the new
total length whenever it takes the merge branch (non-empty existing
collection, non-empty batch), and the merger's `removeProvider` always resets
the cursor to the new length; but the adopt-into-empty branch of
`addThumbnails` returns early and leaves the cursor unchanged. -/
theorem c7_cursor (s : ThumbState) (files : List FileMetadata) (t : String) (i : Int) :
    (s.dateSortedThumbnails ≠ [] → files ≠ [] →
      (addThumbnails s files).renderPointer
        = (addThumbnails s files).dateSortedThumbnails.length)
    ∧ (s.dateSortedThumbnails = [] →
        (addThumbnails s files).renderPointer = s.renderPointer)
    ∧ (thumbRemoveProvider s t i).renderPointer
        = (thumbRemoveProvider s t i).dateSortedThumbnails.length := by
  refine ⟨?_, ?_, rfl⟩
  · intro hs hf
    have hf' : ¬ files.length = 0 := by simpa using hf
    have hs' : ¬ s.dateSortedThumbnails.length = 0 := by simpa using hs
    simp only [addThumbnails, if_neg hf', if_neg hs']
  · intro hs
    by_cases hf : files.length = 0
    · simp only [addThumbnails, if_pos hf]
    · simp [addThumbnails, hf, hs]

/-- Claim C7, witness instantiation of `c7_cursor` (merge branch). -/
theorem c7_witness :
    (([exRec 1] : List FileMetadata) ≠ [] ∧ ([heicFile] : List FileMetadata) ≠ [])
    ∧ (addThumbnails ⟨[exRec 1], 9⟩ [heicFile]).renderPointer
        = (addThumbnails ⟨[exRec 1], 9⟩ [heicFile]).dateSortedThumbnails.length := by
  exact ⟨⟨by decide, by decide⟩,
    (c7_cursor ⟨[exRec 1], 9⟩ [heicFile] "dropbox" 0).1 (by decide) (by decide)⟩

/-! ### The credential store (`env-file-manager.ts`)

The store's persisted text is represented by the list of its `'\n'`-split
segments (`content.split('\n')`), each segment a `List Char`.  The empty
content `""` is represented by `[[]]` (JavaScript's `''.split('\n')` is
`['']`); joining the segments with `'\n'` recovers the text.  Every
`EnvFileManager` method splits the content, works on the segment list and
joins it back, so on this representation split and join are the identity. -/

abbrev Line := List Char

/-- `line.trim()` (both ends; `Char.isWhitespace` stands in for the JS
whitespace class, which agrees on the ASCII content handled here). -/
def trimLine (l : Line) : Line :=
  ((l.dropWhile Char.isWhitespace).reverse.dropWhile Char.isWhitespace).reverse

/-- `l.startsWith(p)` on character sequences. -/
def beginsWith (p l : Line) : Bool := l.take p.length == p

/-- `l.endsWith(su)` on character sequences. -/
def endsWithL (su l : Line) : Bool := beginsWith su.reverse l.reverse

theorem beginsWith_iff (p l : Line) : beginsWith p l = true ↔ ∃ t, l = p ++ t := by
  constructor
  · intro h
    rw [beginsWith, beq_iff_eq] at h
    exact ⟨l.drop p.length, by conv_lhs => rw [← List.take_append_drop p.length l, h]⟩
  · rintro ⟨t, rfl⟩
    rw [beginsWith, beq_iff_eq, List.take_left]

theorem endsWithL_iff (su l : Line) : endsWithL su l = true ↔ ∃ t, l = t ++ su := by
  rw [endsWithL, beginsWith_iff]
  constructor
  · rintro ⟨t, ht⟩
    refine ⟨t.reverse, ?_⟩
    have := congrArg List.reverse ht
    simpa using this
  · rintro ⟨t, rfl⟩
    exact ⟨t.reverse, by simp⟩

/-- The segment lists representing the empty text `""` (the JS falsy-content
check `!currentContent`). -/
def contentIsEmpty (c : List Line) : Bool := c == [] || c == [[]]

/-- `EnvFileManager.writeEnvFile`: a non-empty content is written with a
normalized trailing newline, which adds one empty segment; empty content
writes the empty file. -/
def writeEnvFile (c : List Line) : List Line :=
  if contentIsEmpty c then [[]] else c ++ [[]]

/-- `EnvFileManager.getValue`: first line whose trimmed form starts with
`key=`; the value is the raw line's substring after its first `=`
(`substring(equalIndex + 1)`; when the line has no `=`, `indexOf` yields `-1`
and `substring(0)` returns the whole line). -/
def getValue (c : List Line) (key : Line) : Option Line :=
  if contentIsEmpty c then none
  else
    match c.find? (fun l => beginsWith (key ++ ['=']) (trimLine l)) with
    | some l =>
      some (if l.contains '=' then (l.dropWhile (· != '=')).drop 1 else l)
    | none => none

/-- One entry of `editLines`' `edits` array, with its `pattern` embedded as
the per-line test the compiled regex performs (`editLines` resets
`lastIndex` after every successful `test`, so its regex use is stateless
per line, unlike `removeLines`).  Only the default
`replaceEntireLine = false` mode, the only one the repository uses, is
modelled. -/
structure EditObject where
  test : Line → Bool
  newValue : Line

/-- The per-line body of `editLines`: a matching line keeps everything up to
and including its first `=` and gets `newValue` after it (counting one edit);
a matching line without `=` and a non-matching line pass through. -/
def editLineApply (e : EditObject) (l : Line) : Line × Nat :=
  if e.test l then
    if l.contains '=' then (l.takeWhile (· != '=') ++ '=' :: e.newValue, 1)
    else (l, 0)
  else (l, 0)

/-- `EnvFileManager.editLines`: empty content is a no-op; otherwise every
edit maps over the split lines accumulating the edit count, and the result
is persisted through `writeEnvFile` only when at least one line changed. -/
def editLines (c : List Line) (edits : List EditObject) : List Line :=
  if contentIsEmpty c then c
  else
    let res := edits.foldl
      (fun (acc : List Line × Nat) e =>
        let mapped := acc.1.map (editLineApply e)
        (mapped.map Prod.fst, acc.2 + (mapped.map Prod.snd).sum))
      (c, 0)
    if res.2 > 0 then writeEnvFile res.1 else c

/-- A compiled JavaScript regular expression carrying the `g` flag, embedded
as its matching function: `matchFrom s i` is the end position of the
leftmost match starting at a position `≥ i`, if any — the data `test`
consults and updates through `lastIndex`. -/
structure GRegex where
  matchFrom : Line → Nat → Option Nat

/-- `EnvFileManager.removeLines`: the lines are filtered with
`line => !regex.test(line.trim())` where the single compiled `g`-flag regex
carries its `lastIndex` from one call to the next (set to the match end on
success, reset to `0` on failure); the count of removed lines is returned
and the result is persisted only when positive. -/
def removeLines (c : List Line) (re : GRegex) : List Line × Nat :=
  if contentIsEmpty c then (c, 0)
  else
    let res := c.foldl
      (fun (acc : List Line × Nat) l =>
        match re.matchFrom (trimLine l) acc.2 with
        | some e => (acc.1, e)
        | none => (acc.1 ++ [l], 0))
      ([], 0)
    let removedCount := c.length - res.1.length
    if removedCount > 0 then (writeEnvFile res.1, removedCount) else (c, removedCount)

/-- The number of lines of the store, in the sense of the store's format:
one `KEY=VALUE` entry per line with empty lines ignored (spec §6); blank
segments — in particular the one representing the normalized trailing
newline — are not lines of the store. -/
def storeLineCount (c : List Line) : Nat :=
  (c.filter (fun l => !(trimLine l).isEmpty)).length

theorem trimLine_eq_nil_iff (l : Line) :
    trimLine l = [] ↔ ∀ ch ∈ l, ch.isWhitespace = true := by
  rw [trimLine, List.reverse_eq_nil_iff, List.dropWhile_eq_nil_iff]
  constructor
  · intro h ch hch
    by_cases hw : ch.isWhitespace = true
    · exact hw
    · have h1 : l = l.takeWhile Char.isWhitespace ++ l.dropWhile Char.isWhitespace :=
        (List.takeWhile_append_dropWhile _ _).symm
      rcases List.mem_append.mp (h1 ▸ hch) with hm | hm
      · exact List.mem_takeWhile_imp hm
      · exact h ch (by simpa using hm)
  · intro h ch hch
    rw [List.mem_reverse] at hch
    exact h ch (List.dropWhile_sublist _ |>.mem hch)

/-! ### Claim C9 -/

/-- The pattern `'^A='` compiled with flags `gm`, as `removeLines` applies it
to single lines: a line contains no newline, so with the `m` flag `^` can
only match at position `0`; there is a match (ending at position 2) exactly
when the search starts at `lastIndex = 0` and the line starts with `"A="`. -/
def caretAEqRegex : GRegex :=
  ⟨fun l i => if i == 0 && beginsWith "A=".toList l then some 2 else none⟩

/-- A store with three consecutive lines matching `^A=` (text
`"A=1\nA=2\nA=3\n"`). -/
def c9store : List Line := ["A=1".toList, "A=2".toList, "A=3".toList, []]

/-- Claim C9 (code bug): `removeLines` compiles its pattern once with the
`g` flag and calls `regex.test` inside `Array.prototype.filter`, so
`lastIndex` persists from one line to the next.  Of three consecutive lines
matching `^A=`, the middle one is tested with `lastIndex = 2`, does not
match there, and is kept: the call removes only two of the three matching
lines, returns 2, and the surviving line `"A=2"` still matches the
pattern. -/
theorem c9_removeLines_bug :
    removeLines c9store caretAEqRegex = (["A=2".toList, [], []], 2)
    ∧ caretAEqRegex.matchFrom (trimLine "A=2".toList) 0 = some 2 := by
  exact ⟨rfl, rfl⟩

/-! ### Claim C8 -/

/-- The characters of `"KEY="`, the anchored pattern content of claim C8's
edit (a `'^KEY='` match on a newline-free line is exactly a `"KEY="`
prefix). -/
def keyPat : Line := ['K', 'E', 'Y', '=']

/-- The single edit of claim C8: pattern `'^KEY='`, new value `'X'`. -/
def c8edit : EditObject := ⟨fun l => beginsWith keyPat l, ['X']⟩

/-- What `editLines` does to one line under `c8edit`. -/
def c8fix (l : Line) : Line :=
  if beginsWith keyPat l then ['K', 'E', 'Y', '=', 'X'] else l

theorem c8_editLineApply_match (t : Line) :
    editLineApply c8edit (keyPat ++ t) = (['K', 'E', 'Y', '=', 'X'], 1) := rfl

theorem c8_editLineApply_eq (l : Line) :
    editLineApply c8edit l = (c8fix l, if beginsWith keyPat l then 1 else 0) := by
  cases ha : beginsWith keyPat l
  · rw [c8fix, if_neg (by simp [ha]), if_neg (by simp [ha])]
    have htest : c8edit.test l = false := ha
    rw [editLineApply, htest]
    simp
  · obtain ⟨t, rfl⟩ := (beginsWith_iff _ _).mp ha
    rw [c8_editLineApply_match, c8fix, if_pos (by simp [ha]), if_pos (by simp [ha])]

theorem c8_find (c : List Line)
    (h2 : ∃ l ∈ c, beginsWith keyPat l = true)
    (h3 : ∀ l ∈ c, beginsWith keyPat (trimLine l) = true →
            beginsWith keyPat l = true) :
    (c.map c8fix ++ [[]]).find? (fun l => beginsWith keyPat (trimLine l))
      = some ['K', 'E', 'Y', '=', 'X'] := by
  induction c with
  | nil => simp at h2
  | cons a c ih =>
    cases ha : beginsWith keyPat a
    · have hpa : beginsWith keyPat (trimLine a) = false := by
        cases hta : beginsWith keyPat (trimLine a)
        · rfl
        · exact absurd (h3 a (List.mem_cons_self a c) hta) (by simp [ha])
      have hfix : c8fix a = a := by rw [c8fix, if_neg (by simp [ha])]
      rw [List.map_cons, List.cons_append,
        List.find?_cons_of_neg _ (by simp [hfix, hpa])]
      refine ih ?_ ?_
      · rcases h2 with ⟨l, hl, hbl⟩
        rcases List.mem_cons.mp hl with rfl | hl
        · exact absurd hbl (by simp [ha])
        · exact ⟨l, hl, hbl⟩
      · intro l hl
        exact h3 l (List.mem_cons_of_mem a hl)
    · have hfix : c8fix a = ['K', 'E', 'Y', '=', 'X'] := by
        rw [c8fix, if_pos (by simp [ha])]
      rw [List.map_cons, List.cons_append,
        List.find?_cons_of_pos _ (by rw [hfix]; rfl), hfix]

theorem isEmpty_false_of_ne {l : Line} (h : l ≠ []) : l.isEmpty = false := by
  cases hl : l.isEmpty
  · rfl
  · exact absurd (List.isEmpty_iff.mp hl) h

theorem c8_count (c : List Line) :
    ((c.map c8fix).filter (fun l => !(trimLine l).isEmpty)).length
      = (c.filter (fun l => !(trimLine l).isEmpty)).length := by
  induction c with
  | nil => rfl
  | cons a c ih =>
    have hq : (!(trimLine (c8fix a)).isEmpty) = (!(trimLine a).isEmpty) := by
      cases ha : beginsWith keyPat a
      · rw [c8fix, if_neg (by simp [ha])]
      · obtain ⟨t, rfl⟩ := (beginsWith_iff _ _).mp ha
        have h1 : trimLine (keyPat ++ t) ≠ [] := by
          rw [ne_eq, trimLine_eq_nil_iff]
          intro h
          exact absurd (h 'K' (by simp [keyPat])) (by decide)
        have h2 : trimLine (['K', 'E', 'Y', '=', 'X'] : Line) ≠ [] := by decide
        rw [c8fix, if_pos (by simp [ha])]
        rw [isEmpty_false_of_ne h1, isEmpty_false_of_ne h2]
    rw [List.map_cons, List.filter_cons, List.filter_cons, hq]
    cases hqa : (!(trimLine a).isEmpty) <;> simp [hqa, ih]

/-- Claim C8: on a non-empty store that has a line starting with `KEY=` (and
in which every line whose *trimmed* form starts with `KEY=` also starts with
it untrimmed, so that the regex `'^KEY='` and `getValue`'s trimmed lookup
agree), `editLines [{pattern: '^KEY=', newValue: 'X'}]` rewrites exactly the
value part of the matching lines, a subsequent `getValue('KEY')` returns
`'X'`, and the store's line count (its non-blank lines — the store format
ignores empty lines) is unchanged. -/
theorem c8_roundtrip (c : List Line)
    (h1 : contentIsEmpty c = false)
    (h2 : ∃ l ∈ c, beginsWith keyPat l = true)
    (h3 : ∀ l ∈ c, beginsWith keyPat (trimLine l) = true →
            beginsWith keyPat l = true) :
    editLines c [c8edit] = c.map c8fix ++ [[]]
    ∧ getValue (editLines c [c8edit]) ['K', 'E', 'Y'] = some ['X']
    ∧ storeLineCount (editLines c [c8edit]) = storeLineCount c := by
  rcases h2 with ⟨l₀, hl₀, hbl₀⟩
  have hmapfst : (c.map (editLineApply c8edit)).map Prod.fst = c.map c8fix := by
    rw [List.map_map]
    exact List.map_congr_left (fun l _ => by rw [Function.comp_apply, c8_editLineApply_eq])
  have hKX : (['K', 'E', 'Y', '=', 'X'] : Line) ∈ c.map c8fix := by
    refine List.mem_map.mpr ⟨l₀, hl₀, ?_⟩
    rw [c8fix, if_pos (by simp [hbl₀])]
  have hMne : c.map c8fix ≠ [] := by
    intro h
    rw [h] at hKX
    simp at hKX
  have hMne1 : c.map c8fix ≠ [[]] := by
    intro h
    rw [h] at hKX
    simp at hKX
  have hsum : 0 < ((c.map (editLineApply c8edit)).map Prod.snd).sum := by
    have hone : (1 : Nat) ∈ (c.map (editLineApply c8edit)).map Prod.snd := by
      refine List.mem_map.mpr ⟨editLineApply c8edit l₀, List.mem_map_of_mem _ hl₀, ?_⟩
      rw [c8_editLineApply_eq, hbl₀]
      simp
    have := List.single_le_sum (l := (c.map (editLineApply c8edit)).map Prod.snd)
      (fun x _ => Nat.zero_le x) 1 hone
    omega
  have hM : editLines c [c8edit] = c.map c8fix ++ [[]] := by
    rw [editLines, if_neg (by simp [h1])]
    simp only [List.foldl_cons, List.foldl_nil]
    rw [if_pos (by simpa using hsum), hmapfst, writeEnvFile,
      if_neg (by simp [contentIsEmpty, hMne, hMne1])]
  have hce : contentIsEmpty (c.map c8fix ++ [[]]) = false := by
    rw [contentIsEmpty]
    simp only [Bool.or_eq_false_iff, beq_eq_false_iff_ne, ne_eq]
    refine ⟨by simp, ?_⟩
    intro h
    have hlen0 : (c.map c8fix).length = 0 := by
      have := congrArg List.length h
      simpa using this
    exact hMne (List.length_eq_zero.mp hlen0)
  refine ⟨hM, ?_, ?_⟩
  · rw [hM, getValue, if_neg (by simp [hce])]
    have hfind := c8_find c ⟨l₀, hl₀, hbl₀⟩ h3
    have hkey : ((['K', 'E', 'Y'] : Line) ++ ['=']) = keyPat := rfl
    rw [hkey, hfind]
    rfl
  · rw [hM, storeLineCount, storeLineCount, List.filter_append]
    have h4 : ([([] : Line)].filter (fun l => !(trimLine l).isEmpty)) = [] := rfl
    rw [h4, List.append_nil]
    exact c8_count c

/-- Claim C8, witness instantiation of `c8_roundtrip` on the store
`"KEY=value\n"`. -/
theorem c8_witness :
    (contentIsEmpty ["KEY=value".toList, []] = false
      ∧ (∃ l ∈ [("KEY=value".toList : Line), []], beginsWith keyPat l = true))
    ∧ getValue (editLines ["KEY=value".toList, []] [c8edit]) ['K', 'E', 'Y']
        = some ['X'] := by
  refine ⟨⟨by decide, by decide⟩, ?_⟩
  exact (c8_roundtrip ["KEY=value".toList, []] (by decide) (by decide)
    (by decide)).2.1

/-! ### Credential key lines and `removeInstanceEnvVariable`
    (`cloud-provider-manager.ts`)

A credential key is `PROVIDER_FIELD_index` (e.g. `DROPBOX_APP_KEY_0`), and
`removeInstanceEnvVariable` manipulates such lines with two regular
expressions:

* the removal pattern `` `^${P}_[^=]*_${i}=.*$` ``: a match is exactly a line
  whose key part (before the first `=`) starts with `P_`, ends with `_` and
  the decimal rendering of `i`, and is long enough to hold both;
* the decrement pattern `` `^(${P}_[^=]*_)(\d+)(=.*)$` ``: the greedy
  `[^=]*` makes the captured digit group the maximal all-digit run after the
  *last* underscore of the key part, and requires it to reach the first `=`;
  the captured index is `parseInt`-ed, decremented when above the removed
  one, and re-rendered canonically.
-/

/-- Decimal digit characters of `n`, as JavaScript template-literal
interpolation (`` `${n}` ``) renders them (structural fuel recursion; the
fuel `n + 1` always suffices since `n / 10 < n` for `n ≥ 10`). -/
def natDigitsAux : Nat → Nat → List Char
  | 0, _ => []
  | fuel + 1, n =>
    if n < 10 then [Nat.digitChar n]
    else natDigitsAux fuel (n / 10) ++ [Nat.digitChar (n % 10)]

/-- The decimal rendering `` `${n}` ``. -/
def natDigits (n : Nat) : List Char := natDigitsAux (n + 1) n

/-- `parseInt` on a digit string. -/
def digitsVal (ds : List Char) : Nat :=
  ds.foldl (fun acc c => acc * 10 + (c.toNat - '0'.toNat)) 0

theorem digitChar_isDigit {d : Nat} (h : d < 10) :
    (Nat.digitChar d).isDigit = true := by
  interval_cases d <;> decide

theorem digitChar_val {d : Nat} (h : d < 10) :
    (Nat.digitChar d).toNat - '0'.toNat = d := by
  interval_cases d <;> decide

theorem digitsVal_append_single (ds : List Char) (c : Char) :
    digitsVal (ds ++ [c]) = digitsVal ds * 10 + (c.toNat - '0'.toNat) := by
  rw [digitsVal, List.foldl_append]
  rfl

theorem natDigitsAux_spec :
    ∀ fuel n : Nat, n < fuel →
      natDigitsAux fuel n ≠ []
      ∧ (∀ c ∈ natDigitsAux fuel n, c.isDigit = true)
      ∧ digitsVal (natDigitsAux fuel n) = n := by
  intro fuel
  induction fuel with
  | zero => intro n hn; omega
  | succ f ih =>
    intro n _
    by_cases h : n < 10
    · rw [natDigitsAux, if_pos h]
      refine ⟨by simp, ?_, ?_⟩
      · intro c hc
        rw [List.mem_singleton.mp hc]
        exact digitChar_isDigit h
      · rw [show [Nat.digitChar n] = [] ++ [Nat.digitChar n] from rfl,
          digitsVal_append_single, digitChar_val h]
        simp [digitsVal]
    · have hdiv : n / 10 < f := by
        have h1 : n / 10 < n := Nat.div_lt_self (by omega) (by omega)
        omega
      obtain ⟨ih1, ih2, ih3⟩ := ih (n / 10) hdiv
      rw [natDigitsAux, if_neg h]
      refine ⟨by simp, ?_, ?_⟩
      · intro c hc
        rcases List.mem_append.mp hc with hc | hc
        · exact ih2 c hc
        · rw [List.mem_singleton.mp hc]
          exact digitChar_isDigit (Nat.mod_lt n (by omega))
      · rw [digitsVal_append_single, ih3, digitChar_val (Nat.mod_lt n (by omega))]
        omega

theorem natDigits_ne_nil (n : Nat) : natDigits n ≠ [] :=
  (natDigitsAux_spec (n + 1) n (by omega)).1

theorem natDigits_all_digit (n : Nat) : ∀ c ∈ natDigits n, c.isDigit = true :=
  (natDigitsAux_spec (n + 1) n (by omega)).2.1

theorem digitsVal_natDigits (n : Nat) : digitsVal (natDigits n) = n :=
  (natDigitsAux_spec (n + 1) n (by omega)).2.2

theorem natDigits_inj {m n : Nat} (h : natDigits m = natDigits n) : m = n := by
  have := digitsVal_natDigits m
  rw [h, digitsVal_natDigits] at this
  omega

theorem isDigit_ne {c : Char} (h : c.isDigit = true) : c ≠ '_' ∧ c ≠ '=' := by
  refine ⟨?_, ?_⟩ <;> rintro rfl <;> exact absurd h (by decide)

/-- Split at the first `=` (`indexOf('=')` plus `substring`s): the key part
(no `=` in it) and the remainder beginning with `=`. -/
def splitAtFirstEq (l : Line) : Option (Line × Line) :=
  if l.contains '=' then some (l.takeWhile (· != '='), l.dropWhile (· != '=')) else none

/-- Split the key at its *last* underscore (what the greedy `[^=]*_` leaves
to the digit group): the part up to and including that underscore, and the
suffix after it. -/
def lastUnderscoreSplit (key : Line) : Option (Line × Line) :=
  if key.contains '_' then
    some (key.take (key.length - ((key.reverse.takeWhile (· != '_')).reverse).length),
      (key.reverse.takeWhile (· != '_')).reverse)
  else none

/-- The decrement regex `` `^(${P}_[^=]*_)(\d+)(=.*)$` `` as a parser: on a
match, `some (group1, group2, group3)` — the prefix through the last
underscore of the key, the digit run, and the `=`-led remainder. -/
def parseCredLine (P : Line) (l : Line) : Option (Line × Line × Line) :=
  match splitAtFirstEq l with
  | none => none
  | some (key, eqval) =>
    match lastUnderscoreSplit key with
    | none => none
    | some (pre, ds) =>
      if beginsWith (P ++ ['_']) key && !ds.isEmpty && ds.all Char.isDigit
          && decide (P.length + 2 ≤ pre.length) then
        some (pre, ds, eqval)
      else none

/-- The per-line effect of step 2 of `removeInstanceEnvVariable`: on a
decrement-regex match with captured index above `i`, re-render with the
index decremented (`parseInt` then template interpolation); otherwise leave
the line alone. -/
def decrementLine (P : Line) (i : Nat) (l : Line) : Line :=
  match parseCredLine P l with
  | some (pre, ds, eqval) =>
    if digitsVal ds > i then pre ++ natDigits (digitsVal ds - 1) ++ eqval else l
  | none => l

/-- The removal regex `` `^${P}_[^=]*_${i}=.*$` `` as a line test: the key
part starts with `P_`, ends with `_` followed by the decimal rendering of
`i`, and is long enough that the two do not overlap (the `[^=]*` in between
may be empty). -/
def removeLineMatch (P : Line) (i : Nat) (l : Line) : Bool :=
  match splitAtFirstEq l with
  | none => false
  | some (key, _) =>
    beginsWith (P ++ ['_']) key && endsWithL ('_' :: natDigits i) key
      && decide (P.length + 2 + (natDigits i).length ≤ key.length)

/-- `CloudProviderManager.removeInstanceEnvVariable` on the store content:
step 1 blanks every line matching the removal pattern for instance `i`
(`replace(removePattern, '')` leaves an empty segment); step 2 maps the
decrement rewrite over the lines; step 3 drops the blank lines; the result
is written with a normalized trailing newline (one trailing empty segment —
also covering the `''` write when nothing remains). -/
def removeInstanceEnvVariable (P : Line) (i : Nat) (env : List Line) : List Line :=
  ((env.map (fun l => if removeLineMatch P i l then ([] : Line) else l)).map
      (decrementLine P i)).filter (fun l => !(trimLine l).isEmpty)
    ++ [[]]

/-- The canonical credential line `T_f_j=v` (provider type `T`, credential
field `f`, instance index `j`, value `v`). -/
def credLineR (T f : Line) (j : Nat) (v : Line) : Line :=
  T ++ '_' :: f ++ '_' :: natDigits j ++ '=' :: v

theorem beginsWith_eq_take {p l : Line} :
    beginsWith p l = true ↔ l.take p.length = p := by
  rw [beginsWith, beq_iff_eq]

theorem dropWhile_ne_eq_cons {c : Char} {l : Line} (h : c ∈ l) :
    ∃ rest, l.dropWhile (· != c) = c :: rest := by
  induction l with
  | nil => simp at h
  | cons a l ih =>
    by_cases ha : a = c
    · subst ha
      exact ⟨l, by rw [List.dropWhile_cons_of_neg (by simp)]⟩
    · rcases List.mem_cons.mp h with h' | h'
      · exact absurd h'.symm ha
      · rw [List.dropWhile_cons_of_pos (by simp [ha])]
        exact ih h'

theorem splitAtFirstEq_eq_some {l key ev : Line}
    (h : splitAtFirstEq l = some (key, ev)) :
    l = key ++ ev ∧ (∀ c ∈ key, c ≠ '=') ∧ ∃ rest, ev = '=' :: rest := by
  rw [splitAtFirstEq] at h
  split at h
  case isTrue hc =>
    rw [Option.some.injEq, Prod.mk.injEq] at h
    obtain ⟨h1, h2⟩ := h
    refine ⟨?_, ?_, ?_⟩
    · rw [← h1, ← h2, List.takeWhile_append_dropWhile]
    · intro c hc'
      rw [← h1] at hc'
      simpa using List.mem_takeWhile_imp hc'
    · rw [← h2]
      exact dropWhile_ne_eq_cons (List.mem_of_elem_eq_true hc)
  case isFalse => exact absurd h (by simp)

theorem splitAtFirstEq_render {xs rest : Line} (hxs : ∀ c ∈ xs, c ≠ '=') :
    splitAtFirstEq (xs ++ '=' :: rest) = some (xs, '=' :: rest) := by
  have hcon : (xs ++ '=' :: rest).contains '=' = true :=
    List.elem_eq_true_of_mem (by simp)
  rw [splitAtFirstEq, if_pos hcon,
    List.takeWhile_append_of_pos (fun a ha => by simp [hxs a ha]),
    List.takeWhile_cons_of_neg (by simp), List.append_nil,
    List.dropWhile_append_of_pos (fun a ha => by simp [hxs a ha]),
    List.dropWhile_cons_of_neg (by simp)]

theorem lastUnderscoreSplit_render {t ds : Line}
    (hnu : ∀ c ∈ ds, c ≠ '_') :
    lastUnderscoreSplit (t ++ '_' :: ds) = some (t ++ ['_'], ds) := by
  have hcon : (t ++ '_' :: ds).contains '_' = true :=
    List.elem_eq_true_of_mem (by simp)
  have hrev : (((t ++ '_' :: ds).reverse.takeWhile (· != '_'))).reverse = ds := by
    rw [List.reverse_append, List.reverse_cons, List.append_assoc,
      List.singleton_append,
      List.takeWhile_append_of_pos
        (fun a ha => by simp [hnu a (List.mem_reverse.mp ha)]),
      List.takeWhile_cons_of_neg (by simp), List.append_nil, List.reverse_reverse]
  rw [lastUnderscoreSplit, if_pos hcon, hrev]
  have hlen : (t ++ '_' :: ds).length - ds.length = (t ++ ['_']).length := by
    simp only [List.length_append, List.length_cons, List.length_nil]
    omega
  rw [hlen, show t ++ '_' :: ds = (t ++ ['_']) ++ ds by simp, List.take_left]

theorem lastUnderscoreSplit_eq_some {key pre ds : Line}
    (h : lastUnderscoreSplit key = some (pre, ds)) :
    key = pre ++ ds ∧ (∀ c ∈ ds, c ≠ '_') ∧ ∃ q, pre = q ++ ['_'] := by
  rw [lastUnderscoreSplit] at h
  split at h
  case isTrue hc =>
    rw [Option.some.injEq, Prod.mk.injEq] at h
    obtain ⟨h1, h2⟩ := h
    obtain ⟨r, hr⟩ :=
      dropWhile_ne_eq_cons (c := '_') (l := key.reverse)
        (List.mem_reverse.mpr (List.mem_of_elem_eq_true hc))
    set tw := key.reverse.takeWhile (· != '_') with htw
    have hsplit : key = ('_' :: r).reverse ++ tw.reverse := by
      conv_lhs => rw [← List.reverse_reverse key,
        ← List.takeWhile_append_dropWhile (p := (· != '_')) (l := key.reverse), hr]
      rw [List.reverse_append, htw]
    have hlen2 : key.length - tw.reverse.length = (('_' :: r).reverse).length := by
      rw [hsplit]
      simp only [List.length_append, List.length_reverse, List.length_cons]
      omega
    refine ⟨?_, ?_, ?_⟩
    · rw [← h1, ← h2, hlen2, hsplit, List.take_left]
    · intro c hc'
      rw [← h2, List.mem_reverse] at hc'
      simpa using List.mem_takeWhile_imp hc'
    · refine ⟨r.reverse, ?_⟩
      rw [← h1, hlen2, hsplit, List.take_left, List.reverse_cons]
  case isFalse => exact absurd h (by simp)

theorem parseCredLine_render {P pre ds rest : Line}
    (hq : ∃ q, pre = q ++ ['_'])
    (hpre : ∀ c ∈ pre, c ≠ '=')
    (hds : ds ≠ []) (hdig : ds.all Char.isDigit = true)
    (hP : beginsWith (P ++ ['_']) pre = true)
    (hlen : P.length + 2 ≤ pre.length) :
    parseCredLine P (pre ++ ds ++ '=' :: rest) = some (pre, ds, '=' :: rest) := by
  have hdsne : ∀ c ∈ ds, c ≠ '=' :=
    fun c hc => (isDigit_ne (List.all_eq_true.mp hdig c hc)).2
  have hdsnu : ∀ c ∈ ds, c ≠ '_' :=
    fun c hc => (isDigit_ne (List.all_eq_true.mp hdig c hc)).1
  have hsp : splitAtFirstEq ((pre ++ ds) ++ '=' :: rest)
      = some (pre ++ ds, '=' :: rest) := by
    refine splitAtFirstEq_render ?_
    intro c hc
    rcases List.mem_append.mp hc with hc | hc
    · exact hpre c hc
    · exact hdsne c hc
  have hls : lastUnderscoreSplit (pre ++ ds) = some (pre, ds) := by
    obtain ⟨q, rfl⟩ := hq
    have := lastUnderscoreSplit_render (t := q) hdsnu
    rw [show q ++ '_' :: ds = q ++ ['_'] ++ ds by simp] at this
    exact this
  have hbk : beginsWith (P ++ ['_']) (pre ++ ds) = true := by
    obtain ⟨w, hw⟩ := (beginsWith_iff _ _).mp hP
    exact (beginsWith_iff _ _).mpr ⟨w ++ ds, by rw [hw, List.append_assoc]⟩
  simp only [parseCredLine, hsp, hls]
  rw [if_pos (by simp [hbk, isEmpty_false_of_ne hds, hdig, hlen])]

theorem beginsWith_take {p l : Line} {n : Nat} (h : beginsWith p l = true)
    (hn : p.length ≤ n) : beginsWith p (l.take n) = true := by
  rw [beginsWith_eq_take] at h ⊢
  rw [List.take_take, min_eq_left hn, h]

theorem parseCredLine_eq_some {P l pre ds ev : Line}
    (h : parseCredLine P l = some (pre, ds, ev)) :
    l = pre ++ ds ++ ev
    ∧ (∃ q, pre = q ++ ['_'])
    ∧ (∀ c ∈ pre, c ≠ '=')
    ∧ ds ≠ [] ∧ ds.all Char.isDigit = true
    ∧ beginsWith (P ++ ['_']) pre = true
    ∧ P.length + 2 ≤ pre.length
    ∧ ∃ rest, ev = '=' :: rest := by
  rw [parseCredLine] at h
  split at h
  next => simp at h
  next key ev0 hsp =>
    split at h
    next => simp at h
    next pre0 ds0 hls =>
      split at h
      case isFalse => simp at h
      case isTrue hcond =>
        obtain ⟨h1, h2, h3⟩ : pre0 = pre ∧ ds0 = ds ∧ ev0 = ev := by
          simpa using h
        rw [← h1, ← h2, ← h3]
        obtain ⟨hsp1, hsp2, hsp3⟩ := splitAtFirstEq_eq_some hsp
        obtain ⟨hls1, hls2, hls3⟩ := lastUnderscoreSplit_eq_some hls
        simp only [Bool.and_eq_true, decide_eq_true_eq] at hcond
        obtain ⟨⟨⟨hbk, hne⟩, hdig⟩, hlen⟩ := hcond
        have hbpre : beginsWith (P ++ ['_']) pre0 = true := by
          have hb1 := beginsWith_take (n := pre0.length) hbk
            (by simp only [List.length_append, List.length_cons, List.length_nil]; omega)
          rw [hls1, List.take_left] at hb1
          exact hb1
        refine ⟨by rw [hsp1, hls1], hls3, ?_, ?_, hdig, hbpre, hlen, hsp3⟩
        · intro c hc
          exact hsp2 c (hls1 ▸ List.mem_append.mpr (Or.inl hc))
        · intro hnil
          rw [hnil] at hne
          simp at hne

theorem removeLineMatch_iff (P : Line) (i : Nat) (l : Line) :
    removeLineMatch P i l = true ↔
      ∃ pre ev, parseCredLine P l = some (pre, natDigits i, ev) := by
  constructor
  · intro h
    rw [removeLineMatch] at h
    split at h
    next => simp at h
    next key ev hsp =>
      simp only [Bool.and_eq_true, decide_eq_true_eq] at h
      obtain ⟨⟨hb, he⟩, hlen⟩ := h
      obtain ⟨t, ht⟩ := (endsWithL_iff _ _).mp he
      obtain ⟨hs1, hs2, rest, hrest⟩ := splitAtFirstEq_eq_some hsp
      refine ⟨t ++ ['_'], '=' :: rest, ?_⟩
      rw [hs1, hrest, ht,
        show t ++ '_' :: natDigits i ++ '=' :: rest
          = (t ++ ['_']) ++ natDigits i ++ '=' :: rest by simp]
      refine parseCredLine_render ⟨t, rfl⟩ ?_ (natDigits_ne_nil i)
        (List.all_eq_true.mpr (natDigits_all_digit i)) ?_ ?_
      · intro c hc
        refine hs2 c ?_
        rw [ht]
        rcases List.mem_append.mp hc with hc | hc
        · exact List.mem_append.mpr (Or.inl hc)
        · rw [List.mem_singleton.mp hc]
          simp
      · have h1 := beginsWith_take (n := t.length + 1) hb
          (by
            rw [ht] at hlen
            simp only [List.length_append, List.length_cons, List.length_nil] at hlen ⊢
            omega)
        rw [ht, show t ++ '_' :: natDigits i = (t ++ ['_']) ++ natDigits i by simp]
          at h1
        rw [show t.length + 1 = (t ++ ['_']).length by simp] at h1
        rw [List.take_left] at h1
        exact h1
      · rw [ht] at hlen
        simp only [List.length_append, List.length_cons, List.length_nil] at hlen ⊢
        omega
  · rintro ⟨pre, ev, h⟩
    obtain ⟨hl, ⟨q, hq⟩, hpre, hne, hdig, hb, hlen, rest, hev⟩ :=
      parseCredLine_eq_some h
    subst hev
    have hdsne : ∀ c ∈ natDigits i, c ≠ '=' :=
      fun c hc => (isDigit_ne (natDigits_all_digit i c hc)).2
    have hsp : splitAtFirstEq l = some (pre ++ natDigits i, '=' :: rest) := by
      rw [hl]
      refine splitAtFirstEq_render ?_
      intro c hc
      rcases List.mem_append.mp hc with hc | hc
      · exact hpre c hc
      · exact hdsne c hc
    rw [removeLineMatch, hsp]
    have hbk : beginsWith (P ++ ['_']) (pre ++ natDigits i) = true := by
      obtain ⟨w, hw⟩ := (beginsWith_iff _ _).mp hb
      exact (beginsWith_iff _ _).mpr ⟨w ++ natDigits i, by rw [hw, List.append_assoc]⟩
    have hee : endsWithL ('_' :: natDigits i) (pre ++ natDigits i) = true := by
      refine (endsWithL_iff _ _).mpr ⟨q, ?_⟩
      rw [hq, List.append_assoc, List.singleton_append]
    simp only [hbk, hee, Bool.true_and, Bool.and_true, Bool.and_self,
      decide_eq_true_eq, List.length_append]
    omega

theorem parseCredLine_credLineR {T f : Line} (j : Nat) (v : Line)
    (hT : ∀ c ∈ T, c ≠ '=') (hf : ∀ c ∈ f, c ≠ '=') :
    parseCredLine T (credLineR T f j v)
      = some (T ++ '_' :: f ++ ['_'], natDigits j, '=' :: v) := by
  have hshape : credLineR T f j v
      = (T ++ '_' :: f ++ ['_']) ++ natDigits j ++ '=' :: v := by
    simp [credLineR]
  rw [hshape]
  refine parseCredLine_render ⟨T ++ '_' :: f, by simp⟩ ?_ (natDigits_ne_nil j)
    (List.all_eq_true.mpr (natDigits_all_digit j)) ?_ ?_
  · intro c hc
    simp only [List.mem_append, List.mem_cons, List.not_mem_nil, or_false] at hc
    rcases hc with (hc | hc | hc) | hc
    · exact hT c hc
    · subst hc; decide
    · exact hf c hc
    · subst hc; decide
  · exact (beginsWith_iff _ _).mpr ⟨f ++ ['_'], by simp⟩
  · simp only [List.length_append, List.length_cons, List.length_nil]
    omega

theorem removeLineMatch_credLineR {T f : Line} (i j : Nat) (v : Line)
    (hT : ∀ c ∈ T, c ≠ '=') (hf : ∀ c ∈ f, c ≠ '=') :
    removeLineMatch T i (credLineR T f j v) = true ↔ j = i := by
  rw [removeLineMatch_iff]
  constructor
  · rintro ⟨pre, ev, h⟩
    rw [parseCredLine_credLineR j v hT hf] at h
    have hd : natDigits j = natDigits i := by
      obtain ⟨-, h2, -⟩ : (T ++ '_' :: f ++ ['_']) = pre
          ∧ natDigits j = natDigits i ∧ '=' :: v = ev := by simpa using h
      exact h2
    exact natDigits_inj hd
  · rintro rfl
    exact ⟨_, _, parseCredLine_credLineR j v hT hf⟩

theorem decrementLine_credLineR {T f : Line} (i j : Nat) (v : Line)
    (hT : ∀ c ∈ T, c ≠ '=') (hf : ∀ c ∈ f, c ≠ '=') :
    decrementLine T i (credLineR T f j v)
      = if i < j then credLineR T f (j - 1) v else credLineR T f j v := by
  simp only [decrementLine, parseCredLine_credLineR j v hT hf, digitsVal_natDigits]
  by_cases h : i < j
  · rw [if_pos h, if_pos h]
    simp [credLineR]
  · rw [if_neg h, if_neg h]

theorem parseCredLine_decrementLine {P l pre ds ev : Line} {i : Nat}
    (h : parseCredLine P l = some (pre, ds, ev)) (hgt : digitsVal ds > i) :
    decrementLine P i l = pre ++ natDigits (digitsVal ds - 1) ++ ev
    ∧ parseCredLine P (pre ++ natDigits (digitsVal ds - 1) ++ ev)
      = some (pre, natDigits (digitsVal ds - 1), ev) := by
  obtain ⟨hl, hq, hpre, hne, hdig, hb, hlen, rest, hev⟩ := parseCredLine_eq_some h
  refine ⟨?_, ?_⟩
  · simp only [decrementLine, h]
    rw [if_pos hgt]
  · subst hev
    exact parseCredLine_render hq hpre (natDigits_ne_nil _)
      (List.all_eq_true.mpr (natDigits_all_digit _)) hb hlen

/-- One line's canonicality for provider prefix `P`: if the line parses as a
credential key line, its digit group is the canonical rendering of its
numeric value (no leading zeros). -/
def canonicalLine (P : Line) (l : Line) : Bool :=
  match parseCredLine P l with
  | some (_, ds, _) => ds == natDigits (digitsVal ds)
  | none => true

/-- All lines of the store are canonical for prefix `P`. -/
def envCanonical (P : Line) (env : List Line) : Bool :=
  env.all (canonicalLine P)

/-- The store holds some credential key of prefix `P` with numeric index
`j`. -/
def hasIdx (P : Line) (j : Nat) (env : List Line) : Prop :=
  ∃ l ∈ env, ∃ pre ds ev, parseCredLine P l = some (pre, ds, ev) ∧ digitsVal ds = j

theorem decrementLine_nil (P : Line) (i : Nat) : decrementLine P i [] = [] := rfl

theorem credLineR_trim_ne_nil (P f : Line) (j : Nat) (v : Line) :
    trimLine (credLineR P f j v) ≠ [] := by
  rw [ne_eq, trimLine_eq_nil_iff]
  intro h
  exact absurd (h '_' (by simp [credLineR])) (by decide)

/-- Membership in `removeInstanceEnvVariable`'s result, for canonical
credential lines of the removed provider's prefix: an index below the
removed one survives unchanged, and an index `j ≥ i` in the result is
exactly a former index `j + 1` renumbered down. -/
theorem removeInstanceEnvVariable_mem {P : Line} {i : Nat} {env : List Line}
    (hcanon : envCanonical P env = true)
    (hP : ∀ c ∈ P, c ≠ '=') (f : Line) (j : Nat) (v : Line)
    (hf : ∀ c ∈ f, c ≠ '=') :
    credLineR P f j v ∈ removeInstanceEnvVariable P i env
      ↔ ((j < i ∧ credLineR P f j v ∈ env)
          ∨ (i ≤ j ∧ credLineR P f (j + 1) v ∈ env)) := by
  have hparse := parseCredLine_credLineR (T := P) (f := f) j v hP hf
  have hclne : credLineR P f j v ≠ [] := by
    intro h
    have := congrArg List.length h
    simp [credLineR] at this
  have hmm : credLineR P f j v ∈ removeInstanceEnvVariable P i env
      ↔ ∃ l ∈ env,
          decrementLine P i (if removeLineMatch P i l then ([] : Line) else l)
            = credLineR P f j v := by
    rw [removeInstanceEnvVariable, List.mem_append]
    constructor
    · rintro (h | h)
      · have h1 := List.mem_filter.mp h
        obtain ⟨l1, hl1, he1⟩ := List.mem_map.mp h1.1
        obtain ⟨l, hl, he⟩ := List.mem_map.mp hl1
        exact ⟨l, hl, by rw [he, he1]⟩
      · exact absurd (List.mem_singleton.mp h) hclne
    · rintro ⟨l, hl, he⟩
      refine Or.inl (List.mem_filter.mpr ⟨?_, ?_⟩)
      · exact List.mem_map.mpr ⟨_, List.mem_map.mpr ⟨l, hl, rfl⟩, he⟩
      · simp [isEmpty_false_of_ne (credLineR_trim_ne_nil P f j v)]
  rw [hmm]
  constructor
  · rintro ⟨l, hl, he⟩
    cases hrm : removeLineMatch P i l with
    | true =>
      rw [if_pos hrm, decrementLine_nil] at he
      exact absurd he.symm hclne
    | false =>
      rw [if_neg (by simp [hrm])] at he
      cases hp : parseCredLine P l with
      | none =>
        simp only [decrementLine, hp] at he
        rw [he, hparse] at hp
        simp at hp
      | some pde =>
        obtain ⟨pre, ds, ev⟩ := pde
        have hcl : canonicalLine P l = true :=
          List.all_eq_true.mp hcanon l hl
        have hdsc : ds = natDigits (digitsVal ds) := by
          rw [canonicalLine, hp] at hcl
          exact beq_iff_eq.mp hcl
        by_cases hgt : digitsVal ds > i
        · obtain ⟨hdec, hre⟩ := parseCredLine_decrementLine hp hgt
          simp only [decrementLine, hp] at he
          rw [if_pos hgt] at he
          rw [he] at hre
          rw [hparse] at hre
          obtain ⟨hpre, hds, hev⟩ :
              P ++ '_' :: (f ++ ['_']) = pre
              ∧ natDigits j = natDigits (digitsVal ds - 1)
              ∧ '=' :: v = ev := by simpa using hre
          have hm : digitsVal ds = j + 1 := by
            have := natDigits_inj hds
            omega
          refine Or.inr ⟨by omega, ?_⟩
          have hl2 : l = credLineR P f (j + 1) v := by
            obtain ⟨hl', -⟩ := parseCredLine_eq_some hp
            rw [hl', ← hpre, ← hev, hdsc, hm]
            simp [credLineR]
          exact hl2 ▸ hl
        · simp only [decrementLine, hp] at he
          rw [if_neg hgt] at he
          have hp2 := hp
          rw [he, hparse] at hp2
          obtain ⟨-, hds, -⟩ :
              P ++ '_' :: f ++ ['_'] = pre
              ∧ natDigits j = ds ∧ '=' :: v = ev := by simpa using hp2
          have hdj : digitsVal ds = j := by
            rw [← hds, digitsVal_natDigits]
          have hne2 : j ≠ i := by
            intro hji
            have : removeLineMatch P i l = true := by
              refine (removeLineMatch_iff P i l).mpr ⟨pre, ev, ?_⟩
              rw [hp, ← hds, hji]
            rw [this] at hrm
            simp at hrm
          exact Or.inl ⟨by omega, he ▸ hl⟩
  · rintro (⟨hji, hmem⟩ | ⟨hij, hmem⟩)
    · refine ⟨credLineR P f j v, hmem, ?_⟩
      have hrm : removeLineMatch P i (credLineR P f j v) = false := by
        cases hr : removeLineMatch P i (credLineR P f j v) with
        | false => rfl
        | true =>
          exact absurd ((removeLineMatch_credLineR i j v hP hf).mp hr) (by omega)
      rw [if_neg (by simp [hrm]), decrementLine_credLineR i j v hP hf,
        if_neg (by omega)]
    · refine ⟨credLineR P f (j + 1) v, hmem, ?_⟩
      have hrm : removeLineMatch P i (credLineR P f (j + 1) v) = false := by
        cases hr : removeLineMatch P i (credLineR P f (j + 1) v) with
        | false => rfl
        | true =>
          exact absurd ((removeLineMatch_credLineR i (j + 1) v hP hf).mp hr)
            (by omega)
      rw [if_neg (by simp [hrm]), decrementLine_credLineR i (j + 1) v hP hf,
        if_pos (by omega)]
      simp

theorem trim_ne_nil_of_parse {P l pre ds ev : Line}
    (h : parseCredLine P l = some (pre, ds, ev)) : trimLine l ≠ [] := by
  obtain ⟨hl, ⟨q, hq⟩, -⟩ := parseCredLine_eq_some h
  rw [ne_eq, trimLine_eq_nil_iff]
  intro hall
  have hu : '_' ∈ l := by
    rw [hl, hq]
    simp
  exact absurd (hall '_' hu) (by decide)

theorem mem_removeInstanceEnvVariable {P : Line} {i : Nat} {env : List Line}
    {x : Line} (hx : trimLine x ≠ []) :
    x ∈ removeInstanceEnvVariable P i env
      ↔ ∃ l ∈ env,
          decrementLine P i (if removeLineMatch P i l then ([] : Line) else l)
            = x := by
  rw [removeInstanceEnvVariable, List.mem_append]
  constructor
  · rintro (h | h)
    · have h1 := List.mem_filter.mp h
      obtain ⟨l1, hl1, he1⟩ := List.mem_map.mp h1.1
      obtain ⟨l, hl, he⟩ := List.mem_map.mp hl1
      exact ⟨l, hl, by rw [he, he1]⟩
    · refine absurd (List.mem_singleton.mp h) ?_
      intro hh
      rw [hh] at hx
      exact hx rfl
  · rintro ⟨l, hl, he⟩
    exact Or.inl (List.mem_filter.mpr
      ⟨List.mem_map.mpr ⟨_, List.mem_map.mpr ⟨l, hl, rfl⟩, he⟩,
       by simp [isEmpty_false_of_ne hx]⟩)

/-- Where a parsed line of `removeInstanceEnvVariable`'s result comes from:
either the decrement rewrite of a store line with index above `i`, or an
unmatched, untouched store line with index at most `i`. -/
theorem removeInstanceEnvVariable_src {P : Line} {i : Nat} {env : List Line}
    {x pre ds ev : Line}
    (hx : x ∈ removeInstanceEnvVariable P i env)
    (hp : parseCredLine P x = some (pre, ds, ev)) :
    ∃ l ∈ env, ∃ pre0 ds0 ev0,
      parseCredLine P l = some (pre0, ds0, ev0)
      ∧ ((digitsVal ds0 > i ∧ pre = pre0 ∧ ds = natDigits (digitsVal ds0 - 1)
            ∧ ev = ev0)
          ∨ (digitsVal ds0 ≤ i ∧ removeLineMatch P i l = false ∧ x = l)) := by
  obtain ⟨l, hl, he⟩ :=
    (mem_removeInstanceEnvVariable (trim_ne_nil_of_parse hp)).mp hx
  cases hrm : removeLineMatch P i l with
  | true =>
    rw [if_pos hrm, decrementLine_nil] at he
    rw [← he] at hp
    rw [parseCredLine] at hp
    simp [splitAtFirstEq] at hp
  | false =>
    rw [if_neg (by simp [hrm])] at he
    cases hp0 : parseCredLine P l with
    | none =>
      simp only [decrementLine, hp0] at he
      rw [he] at hp0
      rw [hp0] at hp
      cases hp
    | some pde =>
      obtain ⟨pre0, ds0, ev0⟩ := pde
      by_cases hgt : digitsVal ds0 > i
      · obtain ⟨hdec, hre⟩ := parseCredLine_decrementLine hp0 hgt
        simp only [decrementLine, hp0] at he
        rw [if_pos hgt] at he
        rw [he] at hre
        rw [hre] at hp
        obtain ⟨h1, h2, h3⟩ : pre0 = pre
            ∧ natDigits (digitsVal ds0 - 1) = ds ∧ ev0 = ev := by simpa using hp
        exact ⟨l, hl, pre0, ds0, ev0, hp0,
          Or.inl ⟨hgt, h1.symm, h2.symm, h3.symm⟩⟩
      · simp only [decrementLine, hp0] at he
        rw [if_neg hgt] at he
        exact ⟨l, hl, pre0, ds0, ev0, hp0, Or.inr ⟨by omega, hrm, he.symm⟩⟩

/-- The index sets transform as claimed: after removing instance `i`, index
`j < i` is present iff it was, and index `j ≥ i` is present iff `j + 1`
was. -/
theorem hasIdx_removeInstanceEnvVariable {P : Line} {i : Nat} {env : List Line}
    (hcanon : envCanonical P env = true) (j : Nat) :
    hasIdx P j (removeInstanceEnvVariable P i env)
      ↔ ((j < i ∧ hasIdx P j env) ∨ (i ≤ j ∧ hasIdx P (j + 1) env)) := by
  constructor
  · rintro ⟨x, hx, pre, ds, ev, hp, hdv⟩
    obtain ⟨l, hl, pre0, ds0, ev0, hp0, hcase⟩ :=
      removeInstanceEnvVariable_src hx hp
    rcases hcase with ⟨hgt, -, hds, -⟩ | ⟨hle, hrm, hxl⟩
    · have hm : digitsVal ds0 = j + 1 := by
        rw [hds, digitsVal_natDigits] at hdv
        omega
      exact Or.inr ⟨by omega, l, hl, pre0, ds0, ev0, hp0, hm⟩
    · rw [hxl] at hp
      rw [hp0] at hp
      obtain ⟨h1, h2, h3⟩ : pre0 = pre ∧ ds0 = ds ∧ ev0 = ev := by simpa using hp
      have hm : digitsVal ds0 = j := by rw [h2]; exact hdv
      have hji : j ≠ i := by
        intro hji
        have hc : canonicalLine P l = true := List.all_eq_true.mp hcanon l hl
        rw [canonicalLine, hp0] at hc
        have hds0 : ds0 = natDigits i := by
          rw [beq_iff_eq.mp hc, hm, hji]
        have : removeLineMatch P i l = true :=
          (removeLineMatch_iff P i l).mpr ⟨pre0, ev0, by rw [hp0, hds0]⟩
        rw [this] at hrm
        cases hrm
      exact Or.inl ⟨by omega, l, hl, pre0, ds0, ev0, hp0, hm⟩
  · rintro (⟨hji, l, hl, pre, ds, ev, hp, hdv⟩ | ⟨hij, l, hl, pre, ds, ev, hp, hdv⟩)
    · have hrm : removeLineMatch P i l = false := by
        cases hr : removeLineMatch P i l with
        | false => rfl
        | true =>
          obtain ⟨pre1, ev1, hp1⟩ := (removeLineMatch_iff P i l).mp hr
          rw [hp] at hp1
          obtain ⟨-, h2, -⟩ : pre = pre1 ∧ ds = natDigits i ∧ ev = ev1 := by
            simpa using hp1
          rw [h2, digitsVal_natDigits] at hdv
          omega
      refine ⟨l, ?_, pre, ds, ev, hp, hdv⟩
      refine (mem_removeInstanceEnvVariable (trim_ne_nil_of_parse hp)).mpr
        ⟨l, hl, ?_⟩
      rw [if_neg (by simp [hrm])]
      simp only [decrementLine, hp]
      rw [if_neg (by omega)]
    · have hrm : removeLineMatch P i l = false := by
        cases hr : removeLineMatch P i l with
        | false => rfl
        | true =>
          obtain ⟨pre1, ev1, hp1⟩ := (removeLineMatch_iff P i l).mp hr
          rw [hp] at hp1
          obtain ⟨-, h2, -⟩ : pre = pre1 ∧ ds = natDigits i ∧ ev = ev1 := by
            simpa using hp1
          rw [h2, digitsVal_natDigits] at hdv
          omega
      obtain ⟨hdec, hre⟩ := parseCredLine_decrementLine (i := i) hp (by omega)
      refine ⟨pre ++ natDigits (digitsVal ds - 1) ++ ev, ?_, pre,
        natDigits (digitsVal ds - 1), ev, hre, ?_⟩
      · refine (mem_removeInstanceEnvVariable (trim_ne_nil_of_parse hre)).mpr
          ⟨l, hl, ?_⟩
        rw [if_neg (by simp [hrm])]
        exact hdec
      · rw [digitsVal_natDigits]
        omega

/-- Canonicality of the store survives `removeInstanceEnvVariable`. -/
theorem envCanonical_removeInstanceEnvVariable {P : Line} {i : Nat}
    {env : List Line} (hcanon : envCanonical P env = true) :
    envCanonical P (removeInstanceEnvVariable P i env) = true := by
  rw [envCanonical, List.all_eq_true]
  intro x hx
  cases hp : parseCredLine P x with
  | none => simp [canonicalLine, hp]
  | some pde =>
    obtain ⟨pre, ds, ev⟩ := pde
    obtain ⟨l, hl, pre0, ds0, ev0, hp0, hcase⟩ :=
      removeInstanceEnvVariable_src hx hp
    rcases hcase with ⟨-, -, hds, -⟩ | ⟨-, -, hxl⟩
    · rw [canonicalLine, hp, hds]
      simp [digitsVal_natDigits]
    · have hc : canonicalLine P l = true := List.all_eq_true.mp hcanon l hl
      rw [hxl]
      exact hc

/-- Downward closure (contiguity) of the per-type index set survives
`removeInstanceEnvVariable` on a canonical store. -/
theorem contiguous_removeInstanceEnvVariable {P : Line} {i : Nat}
    {env : List Line} (hcanon : envCanonical P env = true)
    (hcon : ∀ j, hasIdx P (j + 1) env → hasIdx P j env) :
    ∀ j, hasIdx P (j + 1) (removeInstanceEnvVariable P i env)
      → hasIdx P j (removeInstanceEnvVariable P i env) := by
  intro j h
  rw [hasIdx_removeInstanceEnvVariable hcanon] at h ⊢
  rcases h with ⟨hlt, hh⟩ | ⟨hle, hh⟩
  · exact Or.inl ⟨by omega, hcon j hh⟩
  · by_cases hji : i ≤ j
    · exact Or.inr ⟨hji, hcon (j + 1) hh⟩
    · exact Or.inl ⟨by omega, hcon j (hcon (j + 1) hh)⟩

/-! ### The provider manager (`cloud-provider-manager.ts`) -/

/-- A provider instance.  The Dropbox client context is opaque; the only
observable state the claims touch is the `authenticated` flag. -/
structure Provider where
  authenticated : Bool
deriving DecidableEq, Repr

/-- `Credentials` as `addCredentials` assembles them: `appKey`/`appSecret`
from `getValue(...) || ''`, tokens from `getValue(...) || undefined`. -/
structure Credentials where
  appKey : Line
  appSecret : Line
  accessToken : Option Line
  refreshToken : Option Line

/-- JS falsiness of a string-or-undefined value. -/
def isFalsyOpt : Option Line → Bool
  | none => true
  | some v => v.isEmpty

/-- `x || undefined` for a string-or-null `x`. -/
def jsOrUndefined : Option Line → Option Line
  | none => none
  | some v => if v.isEmpty then none else some v

/-- `DropboxProvider.authenticate`: `false` (after recording it on the
instance) when any of the four fields is missing or empty, else `true`. -/
def dropboxAuthenticate (c : Credentials) : Bool :=
  !(isFalsyOpt c.accessToken || isFalsyOpt c.refreshToken
    || c.appKey.isEmpty || c.appSecret.isEmpty)

/-- `DropboxProvider.getEnvVariablePatterns`: key names
`DROPBOX_<FIELD>_<index>`. -/
def dropboxPattern (field : Line) (i : Nat) : Line :=
  "DROPBOX".toList ++ '_' :: field ++ '_' :: natDigits i

/-- The manager's state: the providers object (a missing key and an empty
list are indistinguishable everywhere the source reads it, so the map
defaults to `[]`), the credential store content, and the merger state. -/
structure ManagerState where
  providers : String → List (Option Provider)
  env : List Line
  thumb : ThumbState

/-- Fresh process state: no providers, empty store file, empty merger. -/
def initialManagerState : ManagerState :=
  ⟨fun _ => [], [[]], initialThumbState⟩

def updateProviders (m : String → List (Option Provider)) (k : String)
    (v : List (Option Provider)) : String → List (Option Provider) :=
  fun t => if t = k then v else m t

/-- The manager's thrown errors, by site. -/
inductive ManagerError where
  | unsupportedProviderType
  | noInstances
  | indexOutOfRange
  | instanceMissing
deriving DecidableEq, Repr

/-- `CloudProviderManager.getProvider`: no instances for the type, index
outside `[0, length)`, or a `null` slot each throw (the `get?` fallback arm
is unreachable once the bounds check passed). -/
def getProvider (s : ManagerState) (t : String) (i : Int) :
    Except ManagerError Provider :=
  let ps := s.providers t
  if ps.length = 0 then .error .noInstances
  else if i < 0 ∨ ((ps.length : Int) ≤ i) then .error .indexOutOfRange
  else
    match ps.get? i.toNat with
    | some (some p) => .ok p
    | _ => .error .instanceMissing

/-- `CloudProviderManager.addCredentials` (for the sole provider class,
Dropbox): look the instance up, read the four credential values from the
store, authenticate — which records the outcome on the provider object held
in the list — and return the outcome.  A lookup failure is caught, logged
and reported as `false`. -/
def addCredentials (s : ManagerState) (t : String) (i : Nat) :
    ManagerState × Bool :=
  match getProvider s t i with
  | .error _ => (s, false)
  | .ok _ =>
    let creds : Credentials :=
      { appKey := (getValue s.env (dropboxPattern "APP_KEY".toList i)).getD []
        appSecret := (getValue s.env (dropboxPattern "APP_SECRET".toList i)).getD []
        accessToken :=
          jsOrUndefined (getValue s.env (dropboxPattern "ACCESS_TOKEN".toList i))
        refreshToken :=
          jsOrUndefined (getValue s.env (dropboxPattern "REFRESH_TOKEN".toList i)) }
    let b := dropboxAuthenticate creds
    (⟨updateProviders s.providers t ((s.providers t).set i (some ⟨b⟩)),
      s.env, s.thumb⟩, b)

/-- The `while (length <= instanceIndex) push(null)` loop of
`addProvider`. -/
def growWithNulls (ps : List (Option Provider)) (i : Nat) :
    List (Option Provider) :=
  ps ++ List.replicate (i + 1 - ps.length) none

/-- `CloudProviderManager.addProvider`.  `listing` stands for the batch the
external `provider.listFiles(...)` call would return; it reaches the merger
only when authentication succeeded.  An unsupported type throws from
`getProviderClass` (after the no-op array initialization); an explicit
`instanceIndex` grows the list with `null` holes up to that index and
overwrites the slot, otherwise the new instance is appended. -/
def addProvider (s : ManagerState) (t : String) (instanceIndex : Option Nat)
    (listing : List FileMetadata) : ManagerState × Except ManagerError Provider :=
  if t.toList.map Char.toLower ≠ "dropbox".toList then
    (s, .error .unsupportedProviderType)
  else
    let ps := s.providers t
    let ps1 := match instanceIndex with
      | some i => (growWithNulls ps i).set i (some ⟨false⟩)
      | none => ps ++ [some ⟨false⟩]
    let actualIndex : Nat := match instanceIndex with
      | some i => i
      | none => ps1.length - 1
    let s1 : ManagerState := ⟨updateProviders s.providers t ps1, s.env, s.thumb⟩
    let res := addCredentials s1 t actualIndex
    if res.2 then
      (⟨res.1.providers, res.1.env, addThumbnails res.1.thumb listing⟩, .ok ⟨true⟩)
    else (res.1, .ok ⟨false⟩)

/-- `CloudProviderManager.removeProvider`: an unknown/empty type or an
out-of-range index is only logged — the method returns with the state
unchanged, surfacing nothing.  Otherwise: splice the slot out, drop the
instance's records from the merger, and rewrite the credential store for
the uppercased type name. -/
def removeProvider (s : ManagerState) (t : String) (i : Int) : ManagerState :=
  let ps := s.providers t
  if ps.length = 0 then s
  else if i < 0 ∨ ((ps.length : Int) ≤ i) then s
  else
    ⟨updateProviders s.providers t (ps.eraseIdx i.toNat),
     removeInstanceEnvVariable (t.toList.map Char.toUpper) i.toNat s.env,
     thumbRemoveProvider s.thumb t i⟩

/-- [C10, counterexample] With no dropbox instances registered, `getProvider`
surfaces the lookup error, but `removeProvider` on the very same state does
not: the source logs `No providers found for type` and plain-`return`s, so the
call completes with the state unchanged and no error reaches the caller. -/
theorem c10_counterexample :
    getProvider initialManagerState "dropbox" 0 = .error .noInstances
    ∧ removeProvider initialManagerState "dropbox" 0 = initialManagerState :=
  ⟨rfl, rfl⟩

/-- [C10] Lookup-error surfacing, as the code actually behaves: `getProvider`
fails for all three lookup-error cases — `noInstances` exactly when the type
has no instance list, `indexOutOfRange` exactly when the index falls outside
`[0, length)` of a non-empty list, and `instanceMissing` exactly when the
in-bounds slot is a `null` hole — but `removeProvider` invoked with a
nonexistent provider type or an out-of-range index swallows the lookup
failure and returns with the state unchanged. -/
theorem c10_lookup (s : ManagerState) (t : String) (i : Int) :
    (getProvider s t i = .error .noInstances ↔ (s.providers t).length = 0)
    ∧ ((s.providers t).length ≠ 0 →
        (getProvider s t i = .error .indexOutOfRange
          ↔ (i < 0 ∨ ((s.providers t).length : Int) ≤ i)))
    ∧ (0 ≤ i → i < ((s.providers t).length : Int) →
        (getProvider s t i = .error .instanceMissing
          ↔ (s.providers t).get? i.toNat = some none))
    ∧ ((s.providers t).length = 0 ∨ i < 0 ∨ ((s.providers t).length : Int) ≤ i →
        removeProvider s t i = s) := by
  simp only [getProvider]
  by_cases h0 : (s.providers t).length = 0
  · rw [if_pos h0]
    refine ⟨by simp [h0], fun h => absurd h0 h, fun h1 h2 => by exfalso; omega,
      fun _ => ?_⟩
    simp only [removeProvider]
    rw [if_pos h0]
  · rw [if_neg h0]
    by_cases hb : i < 0 ∨ ((s.providers t).length : Int) ≤ i
    · rw [if_pos hb]
      refine ⟨by simp [h0], fun _ => by simp [hb], fun h1 h2 => by exfalso; omega,
        fun _ => ?_⟩
      simp only [removeProvider]
      rw [if_neg h0, if_pos hb]
    · rw [if_neg hb]
      refine ⟨?_, fun _ => ?_, fun h1 h2 => ?_, fun h => ?_⟩
      · cases hg : (s.providers t).get? i.toNat with
        | none => rw [List.get?_eq_none] at hg; omega
        | some o =>
          cases o with
          | none => simp [hg, h0]
          | some p => simp [hg, h0]
      · cases hg : (s.providers t).get? i.toNat with
        | none => rw [List.get?_eq_none] at hg; omega
        | some o =>
          cases o with
          | none => simp [hg, hb]
          | some p => simp [hg, hb]
      · cases hg : (s.providers t).get? i.toNat with
        | none => rw [List.get?_eq_none] at hg; omega
        | some o =>
          cases o with
          | none => simp [hg]
          | some p => simp [hg]
      · rcases h with h | h
        · exact absurd h h0
        · exact absurd h hb

/-- [C10, witness] The amended theorem applied to the fresh state: the
no-instances lookup failure makes `removeProvider` a silent no-op. -/
theorem c10_witness :
    ((initialManagerState.providers "dropbox").length = 0
      ∨ (0 : Int) < 0 ∨ ((initialManagerState.providers "dropbox").length : Int) ≤ 0)
    ∧ removeProvider initialManagerState "dropbox" 0 = initialManagerState :=
  ⟨Or.inl rfl, (c10_lookup initialManagerState "dropbox" 0).2.2.2 (Or.inl rfl)⟩

/-- A merged record tagged as owned by dropbox instance `j`. -/
def c3rec (j : Int) : FileMetadata :=
  { id := "rec", name := "a.jpg", path := "/a.jpg", date_taken := j, size := 1,
    providerType := "dropbox", instanceIndex := j }

/-- Three authenticated dropbox instances, one merged record each. -/
def c3state : ManagerState :=
  ⟨fun t => if t = "dropbox" then [some ⟨true⟩, some ⟨true⟩, some ⟨true⟩] else [],
   [[]],
   ⟨[c3rec 0, c3rec 1, c3rec 2], 3⟩⟩

/-- [C3, counterexample] Removing dropbox instance 1 of 3 drops exactly the
records tagged index 1, but the survivor owned by the instance formerly at
index 2 keeps its `instanceIndex = 2` tag, while after the removal the
provider list has length 2 and index 2 no longer refers to any instance —
`getProvider` now rejects it as out of range.  The merger never renumbers
surviving records, so the claim's "formerly at i+1 is now referenced as i"
fails. -/
theorem c3_counterexample :
    (removeProvider c3state "dropbox" 1).thumb.dateSortedThumbnails
        = [c3rec 0, c3rec 2]
    ∧ ((removeProvider c3state "dropbox" 1).providers "dropbox").length = 2
    ∧ getProvider (removeProvider c3state "dropbox" 1) "dropbox" 2
        = .error .indexOutOfRange := by
  refine ⟨by decide, by decide, rfl⟩

/-- [C3] What `removeProvider` actually does to the merged index: with the
index in range, exactly the records tagged `(type, i)` are removed, and every
surviving record is kept verbatim — in particular its `(providerType,
instanceIndex)` tag is never rewritten (the survivors form a sublist of the
old collection), so tags above `i` end up pointing at the wrong (shifted)
instance. -/
theorem c3_remove_records (s : ManagerState) (t : String) (i : Int)
    (h0 : 0 ≤ i) (hi : i < ((s.providers t).length : Int)) :
    (∀ x, x ∈ (removeProvider s t i).thumb.dateSortedThumbnails
        ↔ (x ∈ s.thumb.dateSortedThumbnails
            ∧ ¬(x.providerType = t ∧ x.instanceIndex = i)))
    ∧ (removeProvider s t i).thumb.dateSortedThumbnails.Sublist
        s.thumb.dateSortedThumbnails := by
  have hne : ¬ (s.providers t).length = 0 := by omega
  have hb : ¬ (i < 0 ∨ ((s.providers t).length : Int) ≤ i) := by omega
  have ht : (removeProvider s t i).thumb = thumbRemoveProvider s.thumb t i := by
    simp only [removeProvider]
    rw [if_neg hne, if_neg hb]
  rw [ht]
  constructor
  · intro x
    simp only [thumbRemoveProvider, List.mem_filter, Bool.or_eq_true,
      bne_iff_ne, ne_eq]
    tauto
  · exact List.filter_sublist _

/-- [C3, witness] The amended theorem applied to the three-instance state. -/
theorem c3_witness :
    ((0 : Int) ≤ 1 ∧ (1 : Int) < ((c3state.providers "dropbox").length : Int))
    ∧ (removeProvider c3state "dropbox" 1).thumb.dateSortedThumbnails.Sublist
        c3state.thumb.dateSortedThumbnails :=
  ⟨⟨by decide, by decide⟩,
   (c3_remove_records c3state "dropbox" 1 (by decide) (by decide)).2⟩

/-- A credential store with one key per instance, suffixes 0, 1, 2 (plus the
blank final segment every written store carries). -/
def c2env : List Line :=
  ["DROPBOX_APP_KEY_0=a0".toList, "DROPBOX_APP_KEY_1=a1".toList,
   "DROPBOX_APP_KEY_2=a2".toList, []]

/-- Three dropbox instances whose keys are the `c2env` store. -/
def c2state : ManagerState :=
  ⟨fun t => if t = "dropbox" then [some ⟨true⟩, some ⟨true⟩, some ⟨true⟩] else [],
   c2env, ⟨[], 0⟩⟩

/-- [C2] `removeProvider("dropbox", i)` with the index in range rewrites the
store exactly as claimed, stated as a membership characterization over
well-formed credential lines `DROPBOX_<field>_<j>=<value>` (on a canonical
store, i.e. no leading-zero suffixes): after the call, the line with suffix
`j` is present iff either `j < i` and the very same line was present before
(suffixes below the removed index are untouched), or `i ≤ j` and the line
with suffix `j + 1` and the same value was present before (every suffix above
the removed index is decremented by one; in particular no line keeps suffix
`i`, and the old suffix-`i` lines are gone). -/
theorem c2_remove_renumbers (s : ManagerState) (i : Int)
    (h0 : 0 ≤ i) (hi : i < ((s.providers "dropbox").length : Int))
    (hcanon : envCanonical "DROPBOX".toList s.env = true)
    (f : Line) (j : Nat) (v : Line) (hf : ∀ c ∈ f, c ≠ '=') :
    credLineR "DROPBOX".toList f j v ∈ (removeProvider s "dropbox" i).env
      ↔ ((j < i.toNat ∧ credLineR "DROPBOX".toList f j v ∈ s.env)
          ∨ (i.toNat ≤ j ∧ credLineR "DROPBOX".toList f (j + 1) v ∈ s.env)) := by
  have hne : ¬ (s.providers "dropbox").length = 0 := by omega
  have hb : ¬ (i < 0 ∨ ((s.providers "dropbox").length : Int) ≤ i) := by omega
  have hup : "dropbox".toList.map Char.toUpper = "DROPBOX".toList := by decide
  have henv : (removeProvider s "dropbox" i).env
      = removeInstanceEnvVariable "DROPBOX".toList i.toNat s.env := by
    simp only [removeProvider]
    rw [if_neg hne, if_neg hb, hup]
  rw [henv]
  exact removeInstanceEnvVariable_mem hcanon (by decide) f j v hf

/-- [C2, witness] The spec's own scenario: three `APP_KEY` suffixes, remove
instance 1; the characterization instantiated at `j = 1` says the new
suffix-1 line carries value `a2` — what was instance 2's credential is now
addressed under suffix 1. -/
theorem c2_witness :
    ((0 : Int) ≤ 1 ∧ (1 : Int) < ((c2state.providers "dropbox").length : Int)
      ∧ envCanonical "DROPBOX".toList c2state.env = true)
    ∧ (credLineR "DROPBOX".toList "APP_KEY".toList 1 "a2".toList
          ∈ (removeProvider c2state "dropbox" 1).env
        ↔ ((1 < (1 : Int).toNat
              ∧ credLineR "DROPBOX".toList "APP_KEY".toList 1 "a2".toList
                  ∈ c2state.env)
            ∨ ((1 : Int).toNat ≤ 1
              ∧ credLineR "DROPBOX".toList "APP_KEY".toList (1 + 1) "a2".toList
                  ∈ c2state.env))) :=
  ⟨⟨by decide, by decide, by decide⟩,
   c2_remove_renumbers c2state 1 (by decide) (by decide) (by decide)
     "APP_KEY".toList 1 "a2".toList (by decide)⟩

/-- [C1, counterexample] Two completed `addProvider` calls that each break
half of the claimed invariant.  With an explicit `instanceIndex = 1` on an
empty list, the `while (length <= instanceIndex) push(null)` loop leaves a
permanent `null` hole at index 0, so the indices are not a contiguous range
of live instances.  And a plain append leaves the store untouched — one
instance is in memory but no `DROPBOX_*_0` credential key was persisted, so
the store's suffixes do not mirror the in-memory count (`addProvider` only
reads credentials; it never writes them). -/
theorem c1_counterexample :
    ((addProvider initialManagerState "dropbox" (some 1) []).1.providers
        "dropbox") = [none, some ⟨false⟩]
    ∧ ((addProvider initialManagerState "dropbox" none []).1.providers
        "dropbox") = [some ⟨false⟩]
    ∧ (addProvider initialManagerState "dropbox" none []).1.env = [[]] := by
  refine ⟨by decide, by decide, by decide⟩

/-- One Manager mutation on provider type `"dropbox"`: append an instance,
add one at an explicit index, or remove one by index.  `listing` stands for
the directory listing the external `listFiles` call would return. -/
inductive ManagerOp where
  | addEnd (listing : List FileMetadata)
  | addAt (i : Nat) (listing : List FileMetadata)
  | removeAt (i : Int)

def applyOp (s : ManagerState) : ManagerOp → ManagerState
  | .addEnd listing => (addProvider s "dropbox" none listing).1
  | .addAt i listing => (addProvider s "dropbox" (some i) listing).1
  | .removeAt i => removeProvider s "dropbox" i

/-- The amendment's side condition: an explicit index must not exceed the
current list length (beyond it, `addProvider` punches permanent holes, as
the counterexample shows). -/
def opOk (s : ManagerState) : ManagerOp → Bool
  | .addAt i _ => decide (i ≤ (s.providers "dropbox").length)
  | _ => true

def opsOk (s : ManagerState) : List ManagerOp → Bool
  | [] => true
  | op :: ops => opOk s op && opsOk (applyOp s op) ops

def runOps (s : ManagerState) (ops : List ManagerOp) : ManagerState :=
  ops.foldl applyOp s

/-- No provider list holds a `null` slot. -/
def NoHoles (s : ManagerState) : Prop := ∀ t, none ∉ s.providers t

theorem set_append_length {α : Type} (l : List α) (x y : α) :
    (l ++ [x]).set l.length y = l ++ [y] := by
  induction l with
  | nil => rfl
  | cons a l ih =>
    show a :: ((l ++ [x]).set l.length y) = a :: (l ++ [y])
    rw [ih]

/-- Writing a live instance at an in-range slot of the grown list leaves no
hole: below the length the grow loop is a no-op and `set` overwrites a live
or fresh slot; at the length the single pushed `null` is immediately
overwritten. -/
theorem noHoles_slot_write {ps : List (Option Provider)} (hps : none ∉ ps)
    {i : Nat} (p : Provider) (hi : i ≤ ps.length) :
    none ∉ (growWithNulls ps i).set i (some p) := by
  rcases Nat.lt_or_ge i ps.length with hlt | hge
  · rw [growWithNulls, show i + 1 - ps.length = 0 from by omega,
      show List.replicate 0 (none : Option Provider) = [] from rfl,
      List.append_nil]
    intro hmem
    rcases List.mem_or_eq_of_mem_set hmem with h | h
    · exact hps h
    · exact Option.noConfusion h
  · have heq : i = ps.length := by omega
    subst heq
    rw [growWithNulls, show ps.length + 1 - ps.length = 1 from by omega,
      show List.replicate 1 (none : Option Provider) = [none] from rfl,
      set_append_length]
    intro hmem
    rcases List.mem_append.mp hmem with h | h
    · exact hps h
    · rw [List.mem_singleton] at h
      exact Option.noConfusion h

theorem updateProviders_noHoles (m : String → List (Option Provider))
    (hm : ∀ u, none ∉ m u) {ps1 : List (Option Provider)}
    (h1 : none ∉ ps1) : ∀ u, none ∉ updateProviders m "dropbox" ps1 u := by
  intro u hmem
  simp only [updateProviders] at hmem
  by_cases hu : u = "dropbox"
  · rw [if_pos hu] at hmem
    exact h1 hmem
  · rw [if_neg hu] at hmem
    exact hm u hmem

/-- `addCredentials` either leaves the state alone (lookup failure) or
overwrites one slot with a live instance; it never introduces a hole. -/
theorem addCredentials_noHoles (t : String) (i : Nat) {s : ManagerState}
    (hs : ∀ u, none ∉ s.providers u) :
    ∀ u, none ∉ (addCredentials s t i).1.providers u := by
  intro u hmem
  cases hg : getProvider s t i with
  | error e =>
    simp only [addCredentials, hg] at hmem
    exact hs u hmem
  | ok p =>
    simp only [addCredentials, hg, updateProviders] at hmem
    by_cases hu : u = t
    · rw [if_pos hu] at hmem
      rcases List.mem_or_eq_of_mem_set hmem with h | h
      · exact hs t h
      · exact Option.noConfusion h
    · rw [if_neg hu] at hmem
      exact hs u hmem

theorem addCredentials_env (s : ManagerState) (t : String) (i : Nat) :
    (addCredentials s t i).1.env = s.env
    ∧ (addCredentials s t i).1.thumb = s.thumb := by
  cases hg : getProvider s t i with
  | error e => simp [addCredentials, hg]
  | ok p => simp [addCredentials, hg]

/-- `addProvider` never touches the credential store: it only reads the four
credential values through `addCredentials`. -/
theorem addProvider_env (s : ManagerState) (t : String) (idx : Option Nat)
    (listing : List FileMetadata) :
    (addProvider s t idx listing).1.env = s.env := by
  simp only [addProvider]
  split
  · rfl
  · split
    · exact (addCredentials_env _ _ _).1
    · exact (addCredentials_env _ _ _).1

theorem addProvider_noHoles (s : ManagerState) (idx : Option Nat)
    (listing : List FileMetadata) (hs : NoHoles s)
    (hidx : ∀ i, idx = some i → i ≤ (s.providers "dropbox").length) :
    NoHoles (addProvider s "dropbox" idx listing).1 := by
  have hc : ¬("dropbox".toList.map Char.toLower ≠ "dropbox".toList) := by decide
  cases idx with
  | none =>
    have h1 : none ∉ s.providers "dropbox" ++ [some (⟨false⟩ : Provider)] := by
      intro hmem
      rcases List.mem_append.mp hmem with h | h
      · exact hs "dropbox" h
      · rw [List.mem_singleton] at h
        exact Option.noConfusion h
    have hs1 := updateProviders_noHoles s.providers hs h1
    intro t'
    simp only [addProvider]
    rw [if_neg hc]
    split
    · exact addCredentials_noHoles "dropbox" _ hs1 t'
    · exact addCredentials_noHoles "dropbox" _ hs1 t'
  | some i =>
    have h1 := noHoles_slot_write (hs "dropbox") (⟨false⟩ : Provider) (hidx i rfl)
    have hs1 := updateProviders_noHoles s.providers hs h1
    intro t'
    simp only [addProvider]
    rw [if_neg hc]
    split
    · exact addCredentials_noHoles "dropbox" _ hs1 t'
    · exact addCredentials_noHoles "dropbox" _ hs1 t'

theorem removeProvider_preserves (s : ManagerState) (i : Int) (hs : NoHoles s)
    (hc : envCanonical "DROPBOX".toList s.env = true)
    (hg : ∀ j, hasIdx "DROPBOX".toList (j + 1) s.env
        → hasIdx "DROPBOX".toList j s.env) :
    NoHoles (removeProvider s "dropbox" i)
    ∧ envCanonical "DROPBOX".toList (removeProvider s "dropbox" i).env = true
    ∧ (∀ j, hasIdx "DROPBOX".toList (j + 1) (removeProvider s "dropbox" i).env
        → hasIdx "DROPBOX".toList j (removeProvider s "dropbox" i).env) := by
  simp only [removeProvider]
  by_cases h0 : (s.providers "dropbox").length = 0
  · rw [if_pos h0]
    exact ⟨hs, hc, hg⟩
  · rw [if_neg h0]
    by_cases hb : i < 0 ∨ ((s.providers "dropbox").length : Int) ≤ i
    · rw [if_pos hb]
      exact ⟨hs, hc, hg⟩
    · rw [if_neg hb,
        show "dropbox".toList.map Char.toUpper = "DROPBOX".toList from by decide]
      refine ⟨?_, envCanonical_removeInstanceEnvVariable hc,
        contiguous_removeInstanceEnvVariable hc hg⟩
      intro t' hmem
      simp only [updateProviders] at hmem
      by_cases ht' : t' = "dropbox"
      · rw [if_pos ht'] at hmem
        exact hs "dropbox" (List.mem_of_mem_eraseIdx hmem)
      · rw [if_neg ht'] at hmem
        exact hs t' hmem

theorem applyOp_preserves (s : ManagerState) (op : ManagerOp)
    (hop : opOk s op = true) (hs : NoHoles s)
    (hc : envCanonical "DROPBOX".toList s.env = true)
    (hg : ∀ j, hasIdx "DROPBOX".toList (j + 1) s.env
        → hasIdx "DROPBOX".toList j s.env) :
    NoHoles (applyOp s op)
    ∧ envCanonical "DROPBOX".toList (applyOp s op).env = true
    ∧ (∀ j, hasIdx "DROPBOX".toList (j + 1) (applyOp s op).env
        → hasIdx "DROPBOX".toList j (applyOp s op).env) := by
  cases op with
  | addEnd listing =>
    have he : (applyOp s (ManagerOp.addEnd listing)).env = s.env :=
      addProvider_env s "dropbox" none listing
    refine ⟨addProvider_noHoles s none listing hs (fun i h => nomatch h),
      ?_, ?_⟩
    · rw [he]
      exact hc
    · rw [he]
      exact hg
  | addAt i listing =>
    have hle : i ≤ (s.providers "dropbox").length := of_decide_eq_true hop
    have he : (applyOp s (ManagerOp.addAt i listing)).env = s.env :=
      addProvider_env s "dropbox" (some i) listing
    refine ⟨addProvider_noHoles s (some i) listing hs
      (fun j hj => by cases hj; exact hle), ?_, ?_⟩
    · rw [he]
      exact hc
    · rw [he]
      exact hg
  | removeAt i => exact removeProvider_preserves s i hs hc hg

/-- [C1] What survives of the contiguity invariant: starting from a state
with no `null` holes and a canonical, downward-closed credential store, every
sequence of `addProvider`/`removeProvider` operations whose explicit indices
stay within the current list length preserves both — the in-memory list
never acquires a hole (so live instances occupy exactly `[0, count-1]`), and
the store's suffixes stay canonical and contiguous from 0.  The original
claim fails in two ways the counterexample exhibits: an explicit
`instanceIndex` beyond the length leaves permanent holes, and the store's
suffixes do not track the in-memory count because `addProvider` never
persists credential keys. -/
theorem c1_contiguity (ops : List ManagerOp) (s : ManagerState)
    (hs : NoHoles s) (hc : envCanonical "DROPBOX".toList s.env = true)
    (hg : ∀ j, hasIdx "DROPBOX".toList (j + 1) s.env
        → hasIdx "DROPBOX".toList j s.env)
    (hops : opsOk s ops = true) :
    NoHoles (runOps s ops)
    ∧ envCanonical "DROPBOX".toList (runOps s ops).env = true
    ∧ (∀ j, hasIdx "DROPBOX".toList (j + 1) (runOps s ops).env
        → hasIdx "DROPBOX".toList j (runOps s ops).env) := by
  induction ops generalizing s with
  | nil => exact ⟨hs, hc, hg⟩
  | cons op ops ih =>
    rw [opsOk, Bool.and_eq_true] at hops
    have hstep := applyOp_preserves s op hops.1 hs hc hg
    exact ih (applyOp s op) hstep.1 hstep.2.1 hstep.2.2 hops.2

/-- [C1, witness] The amended theorem run from the fresh state over an
append followed by a removal. -/
theorem c1_witness :
    opsOk initialManagerState [ManagerOp.addEnd [], ManagerOp.removeAt 0] = true
    ∧ NoHoles (runOps initialManagerState
        [ManagerOp.addEnd [], ManagerOp.removeAt 0]) := by
  have hs : NoHoles initialManagerState :=
    fun t h => absurd h (List.not_mem_nil none)
  have hg : ∀ j, hasIdx "DROPBOX".toList (j + 1) initialManagerState.env
      → hasIdx "DROPBOX".toList j initialManagerState.env := by
    intro j h
    obtain ⟨l, hl, pre, ds, ev, hp, -⟩ := h
    have hl' : l = [] := by simpa [initialManagerState] using hl
    rw [hl'] at hp
    exact Option.noConfusion hp
  exact ⟨rfl, (c1_contiguity [ManagerOp.addEnd [], ManagerOp.removeAt 0]
    initialManagerState hs (by decide) hg rfl).1⟩

end CloudPhoto
